import Mathlib

/-!
Verification development for the release-preparation engine of the
`initrepo` command-line tool.  The TypeScript source in
`src/commands/prepare-release.ts` is shallowly embedded here: file contents
are lists of characters, the file system is explicit data, and the
JavaScript regular-expression rewrites are modelled as deterministic
scanners (the four patterns involved are backtracking-free, so a
deterministic scanner is faithful).  Curly braces inside string literals
are written with the escapes \x7b and \x7d; the string values are
identical to the source text.
-/

set_option linter.unusedVariables false

deriving instance DecidableEq for Except

namespace InitRepo

/-- Model of the JavaScript whitespace class `\s` as used by the regular
expressions in the source (ASCII range; the exotic Unicode members are not
exercised by YAML workflow files). -/
def jsWs (c : Char) : Bool :=
  c = ' ' || c = '\t' || c = '\n' || c = '\r' || c = '\x0b' || c = '\x0c'

/-- Model of the JavaScript digit class `\d`. -/
def digitCh (c : Char) : Bool :=
  '0' ≤ c && c ≤ '9'

/-- `isPre p s` holds when the list `p` begins the list `s`. -/
def isPre {α : Type} [DecidableEq α] : List α → List α → Bool
  | [], _ => true
  | _ :: _, [] => false
  | p :: ps, c :: cs => p = c && isPre ps cs

/-- `occursIn t s` holds when `t` occurs contiguously inside `s`
(the model of JavaScript `String.prototype.includes`). -/
def occursIn {α : Type} [DecidableEq α] (t : List α) : List α → Bool
  | [] => isPre t []
  | c :: cs => isPre t (c :: cs) || occursIn t cs

/-- Strip the literal `p` from the front of `s`, returning the remainder. -/
def dropL {α : Type} [DecidableEq α] : List α → List α → Option (List α)
  | [], s => some s
  | _ :: _, [] => none
  | p :: ps, c :: cs => if p = c then dropL ps cs else none

/-- Number of leading newline characters. -/
def countNl : List Char → Nat
  | [] => 0
  | c :: t => if c = '\n' then countNl t + 1 else 0

/-- Whether a newline character occurs anywhere in the list. -/
def hasNl (cs : List Char) : Bool :=
  cs.any (· = '\n')

/-- `n` newline characters. -/
def nlRep (n : Nat) : List Char :=
  List.replicate n '\n'

/-- Split at newline characters; the model of JavaScript `split('\n')`. -/
def splitNl : List Char → List (List Char)
  | [] => [[]]
  | '\n' :: t => [] :: splitNl t
  | c :: t =>
    match splitNl t with
    | [] => [[c]]
    | h :: r => (c :: h) :: r

/-- Join lines with newline characters; the model of `join('\n')`. -/
def joinNl : List (List Char) → List Char
  | [] => []
  | [l] => l
  | l :: r => l ++ '\n' :: joinNl r

/-- Model of JavaScript `trimStart()` (drop leading whitespace). -/
def trimStartL (cs : List Char) : List Char :=
  cs.dropWhile fun c => jsWs c

/-- Model of JavaScript `trim()` (drop whitespace at both ends). -/
def trimBothL (cs : List Char) : List Char :=
  ((cs.dropWhile fun c => jsWs c).reverse.dropWhile fun c => jsWs c).reverse

/-- `isSufB q s` holds when the list `q` ends the list `s`. -/
def isSufB {α : Type} [DecidableEq α] (q s : List α) : Bool :=
  isPre q.reverse s.reverse

/-- Three newline characters, the trigger of blank-line collapsing. -/
def nl3 : List Char :=
  ['\n', '\n', '\n']

/-!
The source rewrites `tagpr.yml` with four global `String.replace` calls.
Each pattern is deterministic (no backtracking can change the match), so a
global replace is modelled by a left-to-right scanner: a matcher inspects
the current suffix and either returns a replacement together with the
number of characters consumed, or fails, in which case one character is
kept and scanning resumes at the next position.
-/

/-- Left-to-right global replace driven by the matcher `m`.  The `Nat`
argument counts characters of an accepted match that remain to be skipped;
scanning proper happens at `0`. -/
def scanRepl (m : List Char → Option (List Char × Nat)) : Nat → List Char → List Char
  | _, [] => []
  | n + 1, _ :: t => scanRepl m n t
  | 0, c :: t =>
    match m (c :: t) with
    | some (rep, k) => rep ++ scanRepl m (k - 1) t
    | none => c :: scanRepl m 0 t

/-- Matcher for a literal pattern (`String.replace` with an escaped-literal
regular expression). -/
def mLit {α : Type} [DecidableEq α] (pat rep : List α) (cs : List α) : Option (List α × Nat) :=
  if isPre pat cs && !pat.isEmpty then some (rep, pat.length) else none

/-- `GITHUB_TOKEN: $\x7b\x7b secrets.GITHUB_TOKEN \x7d\x7d` -/
def ghPat : List Char :=
  "GITHUB_TOKEN: $\x7b\x7b secrets.GITHUB_TOKEN \x7d\x7d".data

/-- `GITHUB_TOKEN: $\x7b\x7b secrets.PAT_FOR_TAGPR \x7d\x7d` -/
def ghRep : List Char :=
  "GITHUB_TOKEN: $\x7b\x7b secrets.PAT_FOR_TAGPR \x7d\x7d".data

/-- The literal part of the checkout pattern, before the digits of the
version. -/
def checkoutLit : List Char :=
  "uses: actions/checkout@v".data

/-- The full sentinel comment expected right after a checkout step. -/
def sentLit : List Char :=
  "# TODO: After replace-devcode, add token: $\x7b\x7b secrets.PAT_FOR_TAGPR \x7d\x7d".data

/-- The sentinel comment family (`# TODO: After replace-devcode`), the
literal part of the third pattern. -/
def sentPre : List Char :=
  "# TODO: After replace-devcode".data

/-- The `with:`/`token:` block text inserted under a checkout step. -/
def withTokenTail : List Char :=
  "  token: $\x7b\x7b secrets.PAT_FOR_TAGPR \x7d\x7d".data

/-- Matcher for the second transformation:
`(uses: actions\/checkout@v\d+)\n(\s*)# TODO: After replace-devcode, add
token: ...` replaced by `$1\n$2with:\n$2  token: ...`.  The digit run and
the whitespace run are both greedy and followed by a character outside
their class, so the match is deterministic. -/
def mT2 (cs : List Char) : Option (List Char × Nat) :=
  match dropL checkoutLit cs with
  | none => none
  | some r1 =>
    let ds := r1.takeWhile fun c => digitCh c
    if ds.isEmpty then none else
    match r1.drop ds.length with
    | '\n' :: r2 =>
      let ws := r2.takeWhile fun c => jsWs c
      match dropL sentLit (r2.drop ws.length) with
      | none => none
      | some _ =>
        let g1 := checkoutLit ++ ds
        some (g1 ++ '\n' :: (ws ++ "with:\n".data ++ ws ++ withTokenTail),
          g1.length + 1 + ws.length + sentLit.length)
    | _ => none

/-- Matcher for the third transformation:
`\s*# TODO: After replace-devcode.*\n` replaced by `\n`.  The `.` class of
JavaScript excludes both `\n` and `\r`; the run is greedy and its
terminator must be a bare `\n`. -/
def mT3 (cs : List Char) : Option (List Char × Nat) :=
  let ws := cs.takeWhile fun c => jsWs c
  match dropL sentPre (cs.drop ws.length) with
  | none => none
  | some r =>
    let mid := r.takeWhile fun c => !(c = '\n' || c = '\r')
    match r.drop mid.length with
    | '\n' :: _ => some (['\n'], ws.length + sentPre.length + mid.length + 1)
    | _ => none

/-- Matcher for the fourth transformation: `\n\x7b3,\x7d` replaced by
`\n\n` (a maximal run of three or more newlines collapses to two). -/
def mT4 (cs : List Char) : Option (List Char × Nat) :=
  if 3 ≤ countNl cs then some (['\n', '\n'], countNl cs) else none

/-- First rewrite stage of `replaceInTagprWorkflow`. -/
def tagprStage1 (cs : List Char) : List Char :=
  scanRepl (mLit ghPat ghRep) 0 cs

/-- Second rewrite stage of `replaceInTagprWorkflow`. -/
def tagprStage2 (cs : List Char) : List Char :=
  scanRepl mT2 0 cs

/-- Third rewrite stage of `replaceInTagprWorkflow`. -/
def tagprStage3 (cs : List Char) : List Char :=
  scanRepl mT3 0 cs

/-- Fourth rewrite stage of `replaceInTagprWorkflow`. -/
def tagprStage4 (cs : List Char) : List Char :=
  scanRepl mT4 0 cs

/-- Model of `replaceInTagprWorkflow` on file content.  The source function
receives the devcode and the publish name but never uses them (their
parameters are underscore-named); they are kept here for interface
fidelity. -/
def replaceInTagprWorkflow (devcode publishName content : String) : String :=
  ⟨tagprStage4 (tagprStage3 (tagprStage2 (tagprStage1 content.data)))⟩

/-!
JSON values, the manifest, and the `package.json` strategy.  JSON numbers
are modelled as integers (the manifests involved carry no fractional
numbers).  Objects keep their field order; duplicate keys behave as in
`JSON.parse`, where the last binding wins.
-/

mutual

inductive Json where
  | null
  | bool (b : Bool)
  | num (n : Int)
  | str (s : String)
  | arr (elems : JsonList)
  | obj (fields : JsonFields)
deriving DecidableEq

inductive JsonList where
  | nil
  | cons (hd : Json) (tl : JsonList)
deriving DecidableEq

inductive JsonFields where
  | fnil
  | fcons (key : String) (val : Json) (tl : JsonFields)
deriving DecidableEq

end

/-- A parsed manifest: the field list of a JSON object, in order. -/
abbrev Manifest := List (String × Json)

/-- Property read on a parsed JSON object: the last binding of a key wins,
as in `JSON.parse`. -/
def lookupM : Manifest → String → Option Json
  | [], _ => none
  | (k, v) :: t, key =>
    match lookupM t key with
    | some x => some x
    | none => if k = key then some v else none

/-- Whether the key is bound at all. -/
def hasKeyM : Manifest → String → Bool
  | [], _ => false
  | (k, _) :: t, key => k == key || hasKeyM t key

/-- Overwrite every binding of `key` in place (parsed objects never carry
duplicates, so this coincides with property assignment on them). -/
def overwriteM (key : String) (v : Json) (m : Manifest) : Manifest :=
  m.map fun kv => if kv.1 = key then (kv.1, v) else kv

/-- Model of the JavaScript assignment `pkg[key] = v`: update in place
when the property exists, otherwise append it. -/
def setM (m : Manifest) (key : String) (v : Json) : Manifest :=
  if hasKeyM m key then overwriteM key v m else m ++ [(key, v)]

/-- Model of `delete pkg[key]`. -/
def delM (m : Manifest) (key : String) : Manifest :=
  m.filter fun kv => kv.1 != key

/-- Convert a manifest to the field representation used by the JSON
serializer. -/
def toJF : Manifest → JsonFields
  | [] => .fnil
  | (k, v) :: t => .fcons k v (toJF t)

/-- JavaScript truthiness of a JSON value. -/
def truthy : Json → Bool
  | .null => false
  | .bool b => b
  | .num n => n ≠ 0
  | .str s => s ≠ ""
  | .arr _ => true
  | .obj _ => true

/-- JavaScript truthiness of a possibly absent property (`undefined` is
falsy). -/
def truthyOpt : Option Json → Bool
  | none => false
  | some j => truthy j

/-- The in-memory effect of `replaceInPackageJson`: set `name` to the
publish name, then delete the `"private"` key entirely. -/
def replaceInPackageJsonObj (pkg : Manifest) (publishName : String) : Manifest :=
  delM (setM pkg "name" (.str publishName)) "private"

/-- Two-space indentation of nesting depth `d`. -/
def indentSp (d : Nat) : List Char :=
  List.replicate (2 * d) ' '

/-- One hexadecimal digit. -/
def hexDigit (n : Nat) : Char :=
  if n < 10 then Char.ofNat ('0'.toNat + n) else Char.ofNat ('a'.toNat + (n - 10))

/-- JSON string escaping of a single character. -/
def escChar (c : Char) : List Char :=
  if c = '"' then ['\\', '"']
  else if c = '\\' then ['\\', '\\']
  else if c = '\n' then ['\\', 'n']
  else if c = '\r' then ['\\', 'r']
  else if c = '\t' then ['\\', 't']
  else if c = '\x08' then ['\\', 'b']
  else if c = '\x0c' then ['\\', 'f']
  else if c.toNat < 32 then
    ['\\', 'u', '0', '0', hexDigit (c.toNat / 16), hexDigit (c.toNat % 16)]
  else [c]

/-- A JSON string literal with quotes and escapes. -/
def quoteStr (s : String) : List Char :=
  '"' :: s.data.flatMap escChar ++ ['"']

mutual

/-- Model of `JSON.stringify(v, null, 2)` at nesting depth `d`. -/
def stringifyVal : Nat → Json → List Char
  | _, .null => "null".data
  | _, .bool true => "true".data
  | _, .bool false => "false".data
  | _, .num n => (toString n).data
  | _, .str s => quoteStr s
  | _, .arr .nil => "[]".data
  | d, .arr (.cons h t) =>
    "[\n".data ++ stringifyItems (d + 1) (.cons h t) ++ '\n' :: (indentSp d ++ "]".data)
  | _, .obj .fnil => "\x7b\x7d".data
  | d, .obj (.fcons k v t) =>
    "\x7b\n".data ++ stringifyFields (d + 1) (.fcons k v t) ++ '\n' :: (indentSp d ++ "\x7d".data)

/-- Array items, comma-and-newline separated, each on an indented line. -/
def stringifyItems : Nat → JsonList → List Char
  | _, .nil => []
  | d, .cons h .nil => indentSp d ++ stringifyVal d h
  | d, .cons h (.cons h2 t) =>
    indentSp d ++ stringifyVal d h ++ ",\n".data ++ stringifyItems d (.cons h2 t)

/-- Object fields, comma-and-newline separated, each on an indented line. -/
def stringifyFields : Nat → JsonFields → List Char
  | _, .fnil => []
  | d, .fcons k v .fnil => indentSp d ++ quoteStr k ++ ": ".data ++ stringifyVal d v
  | d, .fcons k v (.fcons k2 v2 t) =>
    indentSp d ++ quoteStr k ++ ": ".data ++ stringifyVal d v ++ ",\n".data
      ++ stringifyFields d (.fcons k2 v2 t)

end

/-- Model of `JSON.stringify(v, null, 2)`. -/
def stringify2 (j : Json) : String :=
  ⟨stringifyVal 0 j⟩

/-- The exact bytes `replaceInPackageJson` writes back:
`JSON.stringify(pkg, null, 2)` followed by one newline. -/
def packageJsonWrite (pkg : Manifest) (publishName : String) : String :=
  ⟨(stringify2 (.obj (toJF (replaceInPackageJsonObj pkg publishName)))).data ++ ['\n']⟩

/-- JavaScript string coercion of the detected name value, used when the
name is threaded into the other strategies.  Arrays and objects are
modelled loosely (they never arise from a well-formed manifest). -/
def jsToString : Option Json → String
  | none => "undefined"
  | some .null => "null"
  | some (.bool true) => "true"
  | some (.bool false) => "false"
  | some (.num n) => toString n
  | some (.str s) => s
  | some (.arr _) => ""
  | some (.obj _) => "[object Object]"

/-- The possible failures of `detectDevcode`, one per `throw` site; a read
failure other than `ENOENT` and a `JSON.parse` failure propagate the raw
error. -/
inductive DetectError where
  | manifestNotFound
  | notDevcodeProject
  | parseError
  | ioError
deriving DecidableEq

/-- The content of `package.json` as seen after `JSON.parse`: either the
parse throws or it yields an object. -/
inductive PkgContent where
  | malformed
  | parsed (pkg : Manifest)
deriving DecidableEq

/-- A file on disk: absent (`ENOENT`), unreadable for another reason, or
present with content. -/
inductive FileState (α : Type) where
  | absent
  | readError
  | present (content : α)
deriving DecidableEq

/-- Model of `detectDevcode`: read `package.json`, fail with the not-found
error on `ENOENT`, re-throw other read errors, parse, fail with the
not-devcode error when `pkg.private` is falsy, otherwise return
`pkg.name`. -/
def detectDevcode : FileState PkgContent → Except DetectError (Option Json)
  | .absent => .error .manifestNotFound
  | .readError => .error .ioError
  | .present .malformed => .error .parseError
  | .present (.parsed pkg) =>
    if truthyOpt (lookupM pkg "private") then .ok (lookupM pkg "name")
    else .error .notDevcodeProject

/-!
The `codeql-config.yml` strategy: line-based, first `name:` line only,
single literal replacement inside that line.
-/

/-- Model of JavaScript `line.replace(pat, rep)` with a plain-string
pattern: replace the first occurrence only (dollar escapes in the
replacement are not modelled; the publish names involved contain none). -/
def replaceOnce {α : Type} [DecidableEq α] (pat rep : List α) : List α → List α
  | [] => if pat.isEmpty then rep else []
  | c :: t =>
    if isPre pat (c :: t) then rep ++ (c :: t).drop pat.length
    else c :: replaceOnce pat rep t

/-- `line.trimStart().startsWith('name:')`. -/
def isNameLine (l : List Char) : Bool :=
  isPre "name:".data (trimStartL l)

/-- The loop of `replaceInCodeqlConfig`: find the first `name:` line,
replace the first devcode occurrence inside it, leave everything else
untouched (the loop breaks after the first hit). -/
def nameLineRewrite (devcode publishName : String) : List (List Char) → List (List Char)
  | [] => []
  | l :: rest =>
    if isNameLine l then replaceOnce devcode.data publishName.data l :: rest
    else l :: nameLineRewrite devcode publishName rest

/-- Model of `replaceInCodeqlConfig` on file content: split on newlines,
rewrite the first `name:` line, join back. -/
def replaceInCodeqlConfig (devcode publishName content : String) : String :=
  ⟨joinNl (nameLineRewrite devcode publishName (splitNl content.data))⟩

/-!
File-level strategies and the orchestrator.  Strategy errors are the
exceptions the orchestrator's per-location `try`/`catch` can observe.
-/

/-- A failure of one managed-location strategy. -/
inductive StratError where
  | fileNotFound
  | ioError
  | parseError
deriving DecidableEq

/-- `replaceInPackageJson` at the file level.  It does not handle `ENOENT`
itself, so a missing manifest surfaces as an error (the orchestrator only
reaches it when detection has already read the manifest). -/
def replaceInPackageJsonFile (publishName : String) :
    FileState PkgContent → FileState PkgContent × Option StratError
  | .absent => (.absent, some .fileNotFound)
  | .readError => (.readError, some .ioError)
  | .present .malformed => (.present .malformed, some .parseError)
  | .present (.parsed pkg) =>
    (.present (.parsed (replaceInPackageJsonObj pkg publishName)), none)

/-- `replaceInCodeqlConfig` at the file level: a missing file is a silent
no-op, other read errors re-throw. -/
def replaceInCodeqlConfigFile (devcode publishName : String) :
    FileState String → FileState String × Option StratError
  | .absent => (.absent, none)
  | .readError => (.readError, some .ioError)
  | .present c => (.present (replaceInCodeqlConfig devcode publishName c), none)

/-- `replaceInTagprWorkflow` at the file level: a missing file is a silent
no-op, other read errors re-throw. -/
def replaceInTagprWorkflowFile (devcode publishName : String) :
    FileState String → FileState String × Option StratError
  | .absent => (.absent, none)
  | .readError => (.readError, some .ioError)
  | .present c => (.present (replaceInTagprWorkflow devcode publishName c), none)

/-- The three managed files of the target directory. -/
structure ProjectState where
  packageJson : FileState PkgContent
  codeqlConfig : FileState String
  tagprWorkflow : FileState String
deriving DecidableEq

/-- One reported unmanaged occurrence: path relative to the root, 1-based
line number, and the line trimmed and truncated to 80 characters. -/
structure Occurrence where
  file : String
  line : Nat
  content : String
deriving DecidableEq

/-- What a completed run reports: the detected devcode, the outcome of
each managed location in registry order, and the unmanaged occurrences. -/
structure Report where
  devcode : String
  locations : List (String × Option StratError)
  unmanaged : List Occurrence
deriving DecidableEq

/-!
The tree scanner and the unmanaged-occurrence finder.  Directory trees are
explicit data; a file's content is `none` when reading it fails.
-/

mutual

inductive FsEntry where
  | file (name : String) (content : Option String)
  | dir (name : String) (entries : FsList)
  | deniedDir (name : String)
deriving DecidableEq

inductive FsList where
  | nil
  | cons (hd : FsEntry) (tl : FsList)
deriving DecidableEq

end

/-- The registry's relative paths (`MANAGED_LOCATIONS`). -/
def managedPaths : List String :=
  ["package.json", ".github/codeql/codeql-config.yml", ".github/workflows/tagpr.yml"]

/-- The directory names excluded from scanning. -/
def excludedDirs : List String :=
  ["node_modules", ".git", "dist", "bun.lockb"]

/-- Model of `findFilesRecursive` on a directory listing, in listing
order: files are collected with their path segments, excluded and
unreadable directories are skipped, other directories are recursed into
depth-first. -/
def findFilesRec (ex : List String) : FsList → List (List String × Option String)
  | .nil => []
  | .cons (.file n c) rest => ([n], c) :: findFilesRec ex rest
  | .cons (.deniedDir _) rest => findFilesRec ex rest
  | .cons (.dir n es) rest =>
    (if ex.contains n then []
     else (findFilesRec ex es).map fun pc => (n :: pc.1, pc.2))
      ++ findFilesRec ex rest

/-- Join path segments; the relative path reported for an occurrence. -/
def relPath (segs : List String) : String :=
  String.intercalate "/" segs

/-- The per-file loop of `findUnmanagedOccurrences`: every line containing
the devcode yields an occurrence with 1-based line number and the line
trimmed and truncated to 80 characters. -/
def scanLines (devcode : String) (rel : String) : Nat → List (List Char) → List Occurrence
  | _, [] => []
  | i, l :: rest =>
    (if occursIn devcode.data l then [⟨rel, i + 1, ⟨(trimBothL l).take 80⟩⟩] else [])
      ++ scanLines devcode rel (i + 1) rest

/-- Model of `findUnmanagedOccurrences`: scan every discovered file except
the managed paths, skipping files that cannot be read. -/
def findUnmanagedOccurrences (devcode : String) (root : FsList) : List Occurrence :=
  (findFilesRec excludedDirs root).flatMap fun pc =>
    let rel := relPath pc.1
    if managedPaths.contains rel then []
    else
      match pc.2 with
      | none => []
      | some content => scanLines devcode rel 0 (splitNl content.data)

/-- Declarative reachability of a file in a tree: the path leads to it
through directories whose names are not excluded. -/
inductive Reaches (ex : List String) : FsList → List String → Option String → Prop where
  | headFile (n : String) (c : Option String) (rest : FsList) :
      Reaches ex (.cons (.file n c) rest) [n] c
  | headDir (n : String) (es : FsList) (rest : FsList) (p : List String) (c : Option String) :
      ex.contains n = false → Reaches ex es p c →
      Reaches ex (.cons (.dir n es) rest) (n :: p) c
  | tail (e : FsEntry) (rest : FsList) (p : List String) (c : Option String) :
      Reaches ex rest p c → Reaches ex (.cons e rest) p c

/-- Model of `prepareRelease`: detect, then run the three managed
strategies in registry order with a `try`/`catch` around each, then scan
for unmanaged occurrences, then report.  `tree` is the directory as the
scanner sees it.  A detection failure aborts the run before any strategy
executes. -/
def prepareRelease (publishName : String) (st : ProjectState) (tree : FsList) :
    ProjectState × Except DetectError Report :=
  match detectDevcode st.packageJson with
  | .error e => (st, .error e)
  | .ok nameVal =>
    let devcode := jsToString nameVal
    let r1 := replaceInPackageJsonFile publishName st.packageJson
    let r2 := replaceInCodeqlConfigFile devcode publishName st.codeqlConfig
    let r3 := replaceInTagprWorkflowFile devcode publishName st.tagprWorkflow
    let occ := findUnmanagedOccurrences devcode tree
    (⟨r1.1, r2.1, r3.1⟩,
     .ok ⟨devcode,
          [("package.json", r1.2),
           (".github/codeql/codeql-config.yml", r2.2),
           (".github/workflows/tagpr.yml", r3.2)],
          occ⟩)

/-!
Run decompositions for the blank-line collapsing stage: content as an
alternation of newline-free text blocks and newline runs.
-/

/-- Rebuild content from text blocks and the newline runs after them. -/
def decodeC : List (List Char × Nat) → List Char
  | [] => []
  | (t, k) :: rest => t ++ nlRep k ++ decodeC rest

/-- Cap every newline run at two. -/
def capC (l : List (List Char × Nat)) : List (List Char × Nat) :=
  l.map fun p => (p.1, min p.2 2)

/-- Well-formed decomposition: text blocks are newline-free and, except
for the first, nonempty (so runs are maximal). -/
def wfC : Bool → List (List Char × Nat) → Prop
  | _, [] => True
  | isFirst, (t, _) :: rest =>
    hasNl t = false ∧ (isFirst = false → t ≠ []) ∧ wfC false rest

/-- Workflow content holding one checkout invocation immediately followed
(after the newline and the line's whitespace indentation) by the sentinel
comment: prefix `a`, version digits `ds`, indentation `ws`, rest `b`. -/
def checkoutInput (a ds ws b : List Char) : List Char :=
  a ++ (checkoutLit ++ (ds ++ ('\n' :: (ws ++ (sentLit ++ b)))))

/-- The same content after the checkout transformation: the sentinel has
become an indented `with:`/`token:` block under the checkout line. -/
def checkoutOutput (a ds ws b : List Char) : List Char :=
  a ++ (((checkoutLit ++ ds) ++ '\n' :: (ws ++ "with:\n".data ++ ws ++ withTokenTail)) ++ b)

/-!
Lemmas about the list-matching primitives.
-/

theorem isPre_iff {α : Type} [DecidableEq α] {p s : List α} :
    isPre p s = true ↔ ∃ r, s = p ++ r := by
  induction p generalizing s with
  | nil => exact ⟨fun _ => ⟨s, rfl⟩, fun _ => rfl⟩
  | cons x xs ih =>
    cases s with
    | nil => simp [isPre]
    | cons c cs =>
      simp only [isPre, Bool.and_eq_true, decide_eq_true_eq, ih, List.cons_append]
      constructor
      · rintro ⟨rfl, r, rfl⟩
        exact ⟨r, rfl⟩
      · rintro ⟨r, h⟩
        cases h
        exact ⟨rfl, r, rfl⟩

theorem isPre_self_append {α : Type} [DecidableEq α] (p r : List α) :
    isPre p (p ++ r) = true :=
  isPre_iff.mpr ⟨r, rfl⟩

theorem isPre_refl {α : Type} [DecidableEq α] (p : List α) :
    isPre p p = true :=
  isPre_iff.mpr ⟨[], by simp⟩

theorem isPre_length {α : Type} [DecidableEq α] {p s : List α}
    (h : isPre p s = true) : p.length ≤ s.length := by
  obtain ⟨r, rfl⟩ := isPre_iff.mp h
  simp

theorem isPre_head {α : Type} [DecidableEq α] {p s : List α}
    (h : isPre p s = true) : p ≠ [] → p.head? = s.head? := by
  obtain ⟨r, rfl⟩ := isPre_iff.mp h
  cases p with
  | nil => intro h'; exact absurd rfl h'
  | cons x xs => intro _; rfl

theorem isPre_append_cases {α : Type} [DecidableEq α] {q a b : List α}
    (h : isPre q (a ++ b) = true) :
    isPre q a = true ∨ isPre a q = true := by
  induction q generalizing a with
  | nil => left; rfl
  | cons x xs ih =>
    cases a with
    | nil => right; rfl
    | cons c cs =>
      rw [List.cons_append] at h
      simp only [isPre, Bool.and_eq_true, decide_eq_true_eq] at h ⊢
      rcases ih h.2 with h' | h'
      · exact Or.inl ⟨h.1, h'⟩
      · exact Or.inr ⟨h.1.symm, h'⟩

theorem isPre_of_isPre_le {α : Type} [DecidableEq α] {x y s : List α}
    (hx : isPre x s = true) (hy : isPre y s = true)
    (hle : x.length ≤ y.length) : isPre x y = true := by
  induction s generalizing x y with
  | nil =>
    obtain ⟨r, hr⟩ := isPre_iff.mp hx
    rcases List.append_eq_nil.mp hr.symm with ⟨rfl, -⟩
    rfl
  | cons c s' ih =>
    cases x with
    | nil => rfl
    | cons a x' =>
      cases y with
      | nil => simp at hle
      | cons b y' =>
        simp only [isPre, Bool.and_eq_true, decide_eq_true_eq] at hx hy ⊢
        exact ⟨hx.1.trans hy.1.symm, ih hx.2 hy.2 (by simpa using hle)⟩

theorem isPre_trans {α : Type} [DecidableEq α] {p q s : List α}
    (h1 : isPre p q = true) (h2 : isPre q s = true) : isPre p s = true := by
  obtain ⟨r1, rfl⟩ := isPre_iff.mp h1
  obtain ⟨r2, rfl⟩ := isPre_iff.mp h2
  exact isPre_iff.mpr ⟨r1 ++ r2, by simp⟩

theorem occursIn_iff {α : Type} [DecidableEq α] {t s : List α} :
    occursIn t s = true ↔ ∃ a b, s = a ++ t ++ b := by
  induction s with
  | nil =>
    simp only [occursIn, isPre_iff]
    constructor
    · rintro ⟨r, hr⟩
      exact ⟨[], r, by simpa using hr⟩
    · rintro ⟨a, b, h⟩
      rcases List.append_eq_nil.mp (List.append_eq_nil.mp h.symm).1 with ⟨_, h2⟩
      exact ⟨b, by simp [h2, (List.append_eq_nil.mp h.symm).2]⟩
  | cons c cs ih =>
    simp only [occursIn, Bool.or_eq_true, ih, isPre_iff]
    constructor
    · rintro (⟨r, hr⟩ | ⟨a, b, rfl⟩)
      · exact ⟨[], r, by simpa using hr⟩
      · exact ⟨c :: a, b, by simp⟩
    · rintro ⟨a, b, h⟩
      cases a with
      | nil => exact Or.inl ⟨b, by simpa using h⟩
      | cons x xs =>
        rw [List.cons_append, List.cons_append, List.cons.injEq] at h
        exact Or.inr ⟨xs, b, h.2⟩

theorem occursIn_of_isPre {α : Type} [DecidableEq α] {t s : List α}
    (h : isPre t s = true) : occursIn t s = true := by
  obtain ⟨r, rfl⟩ := isPre_iff.mp h
  exact occursIn_iff.mpr ⟨[], r, by simp⟩

theorem occursIn_drop {α : Type} [DecidableEq α] {t s : List α} {k : Nat}
    (h : occursIn t (s.drop k) = true) : occursIn t s = true := by
  obtain ⟨a, b, hab⟩ := occursIn_iff.mp h
  exact occursIn_iff.mpr ⟨s.take k ++ a, b, by
    conv_lhs => rw [← List.take_append_drop k s, hab]
    simp⟩

theorem occursIn_append_left {α : Type} [DecidableEq α] {t a : List α} (b : List α)
    (h : occursIn t a = true) : occursIn t (a ++ b) = true := by
  obtain ⟨x, y, rfl⟩ := occursIn_iff.mp h
  exact occursIn_iff.mpr ⟨x, y ++ b, by simp⟩

theorem occursIn_append_right {α : Type} [DecidableEq α] {t b : List α} (a : List α)
    (h : occursIn t b = true) : occursIn t (a ++ b) = true := by
  obtain ⟨x, y, rfl⟩ := occursIn_iff.mp h
  exact occursIn_iff.mpr ⟨a ++ x, y, by simp⟩

theorem occursIn_trans {α : Type} [DecidableEq α] {u t s : List α}
    (h1 : occursIn u t = true) (h2 : occursIn t s = true) : occursIn u s = true := by
  obtain ⟨a1, b1, rfl⟩ := occursIn_iff.mp h1
  obtain ⟨a2, b2, rfl⟩ := occursIn_iff.mp h2
  exact occursIn_iff.mpr ⟨a2 ++ a1, b1 ++ b2, by simp⟩

theorem mem_of_occursIn {α : Type} [DecidableEq α] {t s : List α}
    (h : occursIn t s = true) : ∀ c ∈ t, c ∈ s := by
  obtain ⟨a, b, rfl⟩ := occursIn_iff.mp h
  intro c hc
  simp [hc]

theorem isSufB_iff {α : Type} [DecidableEq α] {q s : List α} :
    isSufB q s = true ↔ ∃ a, s = a ++ q := by
  simp only [isSufB, isPre_iff]
  constructor
  · rintro ⟨r, hr⟩
    refine ⟨r.reverse, ?_⟩
    have := congrArg List.reverse hr
    simpa using this
  · rintro ⟨a, rfl⟩
    exact ⟨a.reverse, by simp⟩

theorem isSufB_length {α : Type} [DecidableEq α] {q s : List α}
    (h : isSufB q s = true) : q.length ≤ s.length := by
  obtain ⟨a, rfl⟩ := isSufB_iff.mp h
  simp

theorem isSufB_append_self {α : Type} [DecidableEq α] (a q : List α) :
    isSufB q (a ++ q) = true :=
  isSufB_iff.mpr ⟨a, rfl⟩

theorem isSufB_of_isSufB_le {α : Type} [DecidableEq α] {x y s : List α}
    (hx : isSufB x s = true) (hy : isSufB y s = true)
    (hle : x.length ≤ y.length) : isSufB x y = true := by
  simp only [isSufB] at hx hy ⊢
  exact isPre_of_isPre_le hx hy (by simpa using hle)

theorem isSufB_cons {α : Type} [DecidableEq α] {q s : List α} (c : α)
    (h : isSufB q s = true) : isSufB q (c :: s) = true := by
  obtain ⟨a, rfl⟩ := isSufB_iff.mp h
  exact isSufB_iff.mpr ⟨c :: a, rfl⟩

theorem occursIn_append_split {α : Type} [DecidableEq α] {t a b : List α}
    (h : occursIn t (a ++ b) = true) :
    occursIn t a = true ∨ occursIn t b = true ∨
      ∃ j, 1 ≤ j ∧ j < t.length ∧ isSufB (t.take j) a = true ∧ isPre (t.drop j) b = true := by
  induction a with
  | nil => exact Or.inr (Or.inl h)
  | cons c a' ih =>
    rw [List.cons_append, occursIn, Bool.or_eq_true] at h
    rcases h with h | h
    · rw [← List.cons_append] at h
      rcases isPre_append_cases (b := b) h with h' | h'
      · exact Or.inl (occursIn_of_isPre h')
      · obtain ⟨u, hu⟩ := isPre_iff.mp h'
        cases u with
        | nil =>
          left
          rw [List.append_nil] at hu
          exact occursIn_of_isPre (hu ▸ isPre_refl t)
        | cons v u' =>
          right; right
          obtain ⟨r, hr⟩ := isPre_iff.mp h
          rw [hu, List.append_assoc] at hr
          have hb : b = (v :: u') ++ r := List.append_cancel_left hr
          refine ⟨(c :: a').length, by simp, ?_, ?_, ?_⟩
          · rw [hu]
            simp
          · rw [hu, List.take_left]
            exact isSufB_iff.mpr ⟨[], by simp⟩
          · rw [hu, List.drop_left]
            exact isPre_iff.mpr ⟨r, hb⟩
    · rcases ih h with h' | h' | ⟨j, hj1, hj2, hj3, hj4⟩
      · left
        rcases occursIn_iff.mp h' with ⟨u, v, rfl⟩
        exact occursIn_iff.mpr ⟨c :: u, v, by simp⟩
      · exact Or.inr (Or.inl h')
      · exact Or.inr (Or.inr ⟨j, hj1, hj2, isSufB_cons c hj3, hj4⟩)

theorem dropL_iff {α : Type} [DecidableEq α] {p s r : List α} :
    dropL p s = some r ↔ s = p ++ r := by
  induction p generalizing s with
  | nil => simp [dropL, eq_comm]
  | cons x xs ih =>
    cases s with
    | nil => simp [dropL]
    | cons c cs =>
      simp only [dropL, List.cons_append, List.cons.injEq]
      by_cases hxc : x = c
      · subst hxc
        simp [ih]
      · simp [hxc, Ne.symm hxc]

/-!
Lemmas about the global-replace scanner.
-/

theorem scanRepl_skip (m : List Char → Option (List Char × Nat)) :
    ∀ (n : Nat) (t : List Char), scanRepl m n t = scanRepl m 0 (t.drop n) := by
  intro n
  induction n with
  | zero => intro t; rfl
  | succ k ih =>
    intro t
    cases t with
    | nil => rfl
    | cons c t' => simpa [scanRepl] using ih t'

theorem scanRepl_matchStep (m : List Char → Option (List Char × Nat))
    {c : Char} {t rep : List Char} {k : Nat}
    (hm : m (c :: t) = some (rep, k)) (hk : 1 ≤ k) :
    scanRepl m 0 (c :: t) = rep ++ scanRepl m 0 ((c :: t).drop k) := by
  cases k with
  | zero => omega
  | succ k' =>
    simp only [scanRepl, hm, List.drop_succ_cons]
    rw [scanRepl_skip]
    simp

theorem scanRepl_keepStep (m : List Char → Option (List Char × Nat))
    {c : Char} {t : List Char} (hm : m (c :: t) = none) :
    scanRepl m 0 (c :: t) = c :: scanRepl m 0 t := by
  simp only [scanRepl, hm]

theorem scanRepl_allFail (m : List Char → Option (List Char × Nat)) :
    ∀ cs, (∀ j, m (cs.drop j) = none) → scanRepl m 0 cs = cs := by
  intro cs
  induction cs with
  | nil => intro _; rfl
  | cons c t ih =>
    intro h
    rw [scanRepl_keepStep m (by simpa using h 0)]
    rw [ih fun j => by simpa using h (j + 1)]

theorem scanRepl_front (m : List Char → Option (List Char × Nat)) :
    ∀ (a b : List Char), (∀ j, j < a.length → m ((a ++ b).drop j) = none) →
    scanRepl m 0 (a ++ b) = a ++ scanRepl m 0 b := by
  intro a
  induction a with
  | nil => intro b _; rfl
  | cons c a' ih =>
    intro b h
    rw [List.cons_append]
    rw [scanRepl_keepStep m (by simpa using h 0 (by simp))]
    rw [ih b fun j hj => by simpa using h (j + 1) (by simpa using hj)]
    simp

/-!
Lemmas about leading-newline counting and the collapse matcher.
-/

theorem countNl_cons_nl (t : List Char) : countNl ('\n' :: t) = countNl t + 1 := by
  simp [countNl]

theorem countNl_cons_ne {c : Char} (t : List Char) (h : ¬ c = '\n') :
    countNl (c :: t) = 0 := by
  simp [countNl, h]

theorem countNl_nlRep_append (k : Nat) (r : List Char) :
    countNl (nlRep k ++ r) = k + countNl r := by
  induction k with
  | zero => simp [nlRep]
  | succ n ih =>
    rw [nlRep, List.replicate_succ, List.cons_append, countNl_cons_nl]
    rw [show List.replicate n '\n' ++ r = nlRep n ++ r from rfl, ih]
    omega

theorem countNl_ge_isPre {cs : List Char} (h : 3 ≤ countNl cs) :
    isPre nl3 cs = true := by
  cases cs with
  | nil => simp [countNl] at h
  | cons a t =>
    by_cases ha : a = '\n'
    · subst ha
      rw [countNl_cons_nl] at h
      cases t with
      | nil => simp [countNl] at h
      | cons b t' =>
        by_cases hb : b = '\n'
        · subst hb
          rw [countNl_cons_nl] at h
          cases t' with
          | nil => simp [countNl] at h
          | cons d t'' =>
            by_cases hd : d = '\n'
            · subst hd
              exact isPre_iff.mpr ⟨t'', rfl⟩
            · rw [countNl_cons_ne _ hd] at h; omega
        · rw [countNl_cons_ne _ hb] at h; omega
    · rw [countNl_cons_ne _ ha] at h; omega

theorem mT4_none_of_noTriple {cs : List Char} (h : occursIn nl3 cs = false) :
    ∀ j, mT4 (cs.drop j) = none := by
  intro j
  rw [mT4]
  split
  · rename_i h3
    have := occursIn_drop (t := nl3) (s := cs) (k := j)
      (occursIn_of_isPre (countNl_ge_isPre h3))
    rw [this] at h
    cases h
  · rfl

theorem occursIn_nil {α : Type} [DecidableEq α] {t : List α} (h : t ≠ []) :
    occursIn t [] = false := by
  cases ht : occursIn t []
  · rfl
  · obtain ⟨a, b, hab⟩ := occursIn_iff.mp ht
    rcases List.append_eq_nil.mp (List.append_eq_nil.mp hab.symm).1 with ⟨-, h0⟩
    exact absurd h0 h

/-!
Occurrence preservation and removal under the scanner.  Both proofs run by
strong induction on the input length and carry a transfer invariant: a
proper tail of the target that begins the output also begins the input.
-/

theorem scanRepl_preserve (m : List Char → Option (List Char × Nat)) (T : List Char)
    (hT : T ≠ [])
    (hc : ∀ cs rep k, m cs = some (rep, k) →
      1 ≤ k ∧ occursIn T rep = false ∧
      (∀ j, 1 ≤ j → j < T.length → isSufB (T.take j) rep = false) ∧
      (∀ i, 1 ≤ i → i < T.length →
        isPre (T.drop i) rep = false ∧ isPre rep (T.drop i) = false)) :
    ∀ cs, occursIn T cs = false →
      occursIn T (scanRepl m 0 cs) = false ∧
      (∀ i, 1 ≤ i → i < T.length →
        isPre (T.drop i) (scanRepl m 0 cs) = true → isPre (T.drop i) cs = true) := by
  suffices H : ∀ n cs, cs.length ≤ n → occursIn T cs = false →
      occursIn T (scanRepl m 0 cs) = false ∧
      (∀ i, 1 ≤ i → i < T.length →
        isPre (T.drop i) (scanRepl m 0 cs) = true → isPre (T.drop i) cs = true) by
    intro cs h
    exact H cs.length cs (Nat.le_refl _) h
  intro n
  induction n with
  | zero =>
    intro cs hlen h
    have : cs = [] := List.eq_nil_of_length_eq_zero (Nat.le_zero.mp hlen)
    subst this
    exact ⟨h, fun i _ _ hp => hp⟩
  | succ n ih =>
    intro cs hlen h
    cases cs with
    | nil => exact ⟨h, fun i _ _ hp => hp⟩
    | cons c t =>
      cases hm : m (c :: t) with
      | some val =>
        obtain ⟨rep, k⟩ := val
        obtain ⟨hk, hrep1, hrep2, hrep3⟩ := hc _ _ _ hm
        rw [scanRepl_matchStep m hm hk]
        have hrest_len : ((c :: t).drop k).length ≤ n := by
          simp only [List.length_drop, List.length_cons] at *
          omega
        have hrest_occ : occursIn T ((c :: t).drop k) = false := by
          cases ho : occursIn T ((c :: t).drop k)
          · rfl
          · rw [occursIn_drop ho] at h; cases h
        obtain ⟨ih1, ih2⟩ := ih _ hrest_len hrest_occ
        constructor
        · cases hocc : occursIn T (rep ++ scanRepl m 0 ((c :: t).drop k))
          · rfl
          · exfalso
            rcases occursIn_append_split hocc with h1 | h1 | ⟨j, hj1, hj2, hj3, hj4⟩
            · rw [hrep1] at h1; cases h1
            · rw [ih1] at h1; cases h1
            · rw [hrep2 j hj1 hj2] at hj3; cases hj3
        · intro i hi1 hi2 hp
          rcases isPre_append_cases hp with h1 | h1
          · rw [(hrep3 i hi1 hi2).1] at h1; cases h1
          · rw [(hrep3 i hi1 hi2).2] at h1; cases h1
      | none =>
        rw [scanRepl_keepStep m hm]
        rw [occursIn, Bool.or_eq_false_iff] at h
        obtain ⟨hpre, hocc⟩ := h
        have htlen : t.length ≤ n := by
          simp only [List.length_cons] at hlen
          omega
        obtain ⟨ih1, ih2⟩ := ih t htlen hocc
        constructor
        · rw [occursIn, ih1, Bool.or_false]
          cases hp : isPre T (c :: scanRepl m 0 t)
          · rfl
          · exfalso
            cases T with
            | nil => exact hT rfl
            | cons x T' =>
              simp only [isPre, Bool.and_eq_true, decide_eq_true_eq] at hp
              obtain ⟨hxc, hp2⟩ := hp
              cases hT' : T' with
              | nil =>
                subst hT'
                have : isPre [x] (c :: t) = true := by
                  simp [isPre, hxc]
                rw [this] at hpre; cases hpre
              | cons y T'' =>
                have h1lt : 1 < (x :: T').length := by
                  simp [hT']
                have htr := ih2 1 (Nat.le_refl _) h1lt
                simp only [List.drop_one, List.tail_cons] at htr
                have : isPre (x :: T') (c :: t) = true := by
                  simp only [isPre, Bool.and_eq_true, decide_eq_true_eq]
                  exact ⟨hxc, htr (hT' ▸ hp2)⟩
                rw [this] at hpre; cases hpre
        · intro i hi1 hi2 hp
          cases hq : T.drop i with
          | nil =>
            have hlen2 := congrArg List.length hq
            simp only [List.length_drop, List.length_nil] at hlen2
            omega
          | cons d q' =>
            rw [hq] at hp
            simp only [isPre, Bool.and_eq_true, decide_eq_true_eq] at hp ⊢
            refine ⟨hp.1, ?_⟩
            by_cases hq'e : q' = []
            · subst hq'e
              rfl
            · have hq1 : T.drop (i + 1) = q' := by
                have h' := congrArg (List.drop 1) hq
                rw [List.drop_drop] at h'
                simpa using h'
              have hi2' : i + 1 < T.length := by
                have hlen2 := congrArg List.length hq
                have hq'len : 1 ≤ q'.length := List.length_pos.mpr hq'e
                simp only [List.length_drop, List.length_cons] at hlen2
                omega
              have htr := ih2 (i + 1) (by omega) hi2'
              rw [hq1] at htr
              exact htr hp.2

theorem scanRepl_removeLit (pat rep : List Char)
    (hpat : pat ≠ [])
    (h1 : occursIn pat rep = false)
    (h2 : ∀ j, 1 ≤ j → j < pat.length → isSufB (pat.take j) rep = false)
    (h3 : ∀ i, 1 ≤ i → i < pat.length →
      isPre (pat.drop i) rep = false ∧ isPre rep (pat.drop i) = false) :
    ∀ cs, occursIn pat (scanRepl (mLit pat rep) 0 cs) = false ∧
      (∀ i, 1 ≤ i → i < pat.length →
        isPre (pat.drop i) (scanRepl (mLit pat rep) 0 cs) = true →
        isPre (pat.drop i) cs = true) := by
  suffices H : ∀ n cs, cs.length ≤ n →
      occursIn pat (scanRepl (mLit pat rep) 0 cs) = false ∧
      (∀ i, 1 ≤ i → i < pat.length →
        isPre (pat.drop i) (scanRepl (mLit pat rep) 0 cs) = true →
        isPre (pat.drop i) cs = true) by
    intro cs
    exact H cs.length cs (Nat.le_refl _)
  intro n
  induction n with
  | zero =>
    intro cs hlen
    have : cs = [] := List.eq_nil_of_length_eq_zero (Nat.le_zero.mp hlen)
    subst this
    exact ⟨occursIn_nil hpat, fun i _ _ hp => hp⟩
  | succ n ih =>
    intro cs hlen
    cases cs with
    | nil => exact ⟨occursIn_nil hpat, fun i _ _ hp => hp⟩
    | cons c t =>
      have hne : pat.isEmpty = false := by
        cases pat with
        | nil => exact absurd rfl hpat
        | cons p ps => rfl
      cases hp : isPre pat (c :: t) with
      | true =>
        have hm : mLit pat rep (c :: t) = some (rep, pat.length) := by
          simp [mLit, hp, hne]
        have hk : 1 ≤ pat.length := by
          cases pat with
          | nil => exact absurd rfl hpat
          | cons p ps => simp
        rw [scanRepl_matchStep _ hm hk]
        have hrest_len : ((c :: t).drop pat.length).length ≤ n := by
          simp only [List.length_drop, List.length_cons] at *
          omega
        obtain ⟨ih1, ih2⟩ := ih _ hrest_len
        constructor
        · cases hocc : occursIn pat (rep ++ scanRepl (mLit pat rep) 0 ((c :: t).drop pat.length))
          · rfl
          · exfalso
            rcases occursIn_append_split hocc with hx | hx | ⟨j, hj1, hj2, hj3, hj4⟩
            · rw [h1] at hx; cases hx
            · rw [ih1] at hx; cases hx
            · rw [h2 j hj1 hj2] at hj3; cases hj3
        · intro i hi1 hi2 hpp
          rcases isPre_append_cases hpp with hx | hx
          · rw [(h3 i hi1 hi2).1] at hx; cases hx
          · rw [(h3 i hi1 hi2).2] at hx; cases hx
      | false =>
        have hm : mLit pat rep (c :: t) = none := by
          simp [mLit, hp]
        rw [scanRepl_keepStep _ hm]
        have htlen : t.length ≤ n := by
          simp only [List.length_cons] at hlen
          omega
        obtain ⟨ih1, ih2⟩ := ih t htlen
        constructor
        · rw [occursIn, ih1, Bool.or_false]
          cases hpc : isPre pat (c :: scanRepl (mLit pat rep) 0 t)
          · rfl
          · exfalso
            cases pat with
            | nil => exact hpat rfl
            | cons x P' =>
              simp only [isPre, Bool.and_eq_true, decide_eq_true_eq] at hpc
              obtain ⟨hxc, hp2⟩ := hpc
              cases hP' : P' with
              | nil =>
                subst hP'
                have : isPre [x] (c :: t) = true := by simp [isPre, hxc]
                rw [this] at hp; cases hp
              | cons y P'' =>
                have h1lt : 1 < (x :: P').length := by simp [hP']
                have htr := ih2 1 (Nat.le_refl _) h1lt
                simp only [List.drop_one, List.tail_cons] at htr
                have : isPre (x :: P') (c :: t) = true := by
                  simp only [isPre, Bool.and_eq_true, decide_eq_true_eq]
                  exact ⟨hxc, htr (hP' ▸ hp2)⟩
                rw [this] at hp; cases hp
        · intro i hi1 hi2 hpp
          cases hq : pat.drop i with
          | nil =>
            have hlen2 := congrArg List.length hq
            simp only [List.length_drop, List.length_nil] at hlen2
            omega
          | cons d q' =>
            rw [hq] at hpp
            simp only [isPre, Bool.and_eq_true, decide_eq_true_eq] at hpp ⊢
            refine ⟨hpp.1, ?_⟩
            by_cases hq'e : q' = []
            · subst hq'e
              rfl
            · have hq1 : pat.drop (i + 1) = q' := by
                have h' := congrArg (List.drop 1) hq
                rw [List.drop_drop] at h'
                simpa using h'
              have hi2' : i + 1 < pat.length := by
                have hlen2 := congrArg List.length hq
                have hq'len : 1 ≤ q'.length := List.length_pos.mpr hq'e
                simp only [List.length_drop, List.length_cons] at hlen2
                omega
              have htr := ih2 (i + 1) (by omega) hi2'
              rw [hq1] at htr
              exact htr hpp.2

/-!
The collapse stage: no triple newline survives, and on a run
decomposition it caps every newline run at two.
-/

theorem countNl_le_length (cs : List Char) : countNl cs ≤ cs.length := by
  induction cs with
  | nil => simp [countNl]
  | cons c t ih =>
    by_cases hc : c = '\n'
    · subst hc
      rw [countNl_cons_nl]
      simpa using ih
    · rw [countNl_cons_ne _ hc]
      simp

theorem countNl_drop_self : ∀ cs : List Char, countNl (cs.drop (countNl cs)) = 0 := by
  intro cs
  induction cs with
  | nil => rfl
  | cons c t ih =>
    by_cases hc : c = '\n'
    · subst hc
      rw [countNl_cons_nl]
      simpa using ih
    · rw [countNl_cons_ne _ hc]
      rw [List.drop_zero, countNl_cons_ne _ hc]

theorem countNl_zero_isPre_false {x : List Char} (h : countNl x = 0) (r : List Char) :
    isPre ('\n' :: r) x = false := by
  cases x with
  | nil => rfl
  | cons d t =>
    by_cases hd : d = '\n'
    · subst hd
      rw [countNl_cons_nl] at h
      omega
    · simp [isPre, Ne.symm hd]

theorem isPre_nl2_countNl {x : List Char} (h : isPre ['\n', '\n'] x = true) :
    2 ≤ countNl x := by
  obtain ⟨r, rfl⟩ := isPre_iff.mp h
  rw [List.cons_append, List.cons_append, countNl_cons_nl, countNl_cons_nl]
  omega

theorem isPre_cons_cons {α : Type} [DecidableEq α] (a : α) (p s : List α) :
    isPre (a :: p) (a :: s) = isPre p s := by
  simp [isPre]

theorem tagprStage4_spec : ∀ cs,
    occursIn nl3 (tagprStage4 cs) = false ∧
    countNl (tagprStage4 cs) = min (countNl cs) 2 := by
  suffices H : ∀ n cs, cs.length ≤ n →
      occursIn nl3 (tagprStage4 cs) = false ∧
      countNl (tagprStage4 cs) = min (countNl cs) 2 by
    intro cs
    exact H cs.length cs (Nat.le_refl _)
  intro n
  induction n with
  | zero =>
    intro cs hlen
    have : cs = [] := List.eq_nil_of_length_eq_zero (Nat.le_zero.mp hlen)
    subst this
    exact ⟨occursIn_nil (by simp [nl3]), rfl⟩
  | succ n ih =>
    intro cs hlen
    by_cases h3 : 3 ≤ countNl cs
    · have hm : mT4 cs = some (['\n', '\n'], countNl cs) := by
        simp [mT4, h3]
      cases cs with
      | nil => simp [countNl] at h3
      | cons c t =>
        have hstep := scanRepl_matchStep mT4 hm (by omega)
        rw [show scanRepl mT4 0 (c :: t) = tagprStage4 (c :: t) from rfl] at hstep
        rw [hstep]
        rw [show scanRepl mT4 0 ((c :: t).drop (countNl (c :: t)))
            = tagprStage4 ((c :: t).drop (countNl (c :: t))) from rfl]
        have hrest_len : ((c :: t).drop (countNl (c :: t))).length ≤ n := by
          simp only [List.length_drop, List.length_cons] at *
          omega
        obtain ⟨ih1, ih2⟩ := ih _ hrest_len
        have hrest0 : countNl ((c :: t).drop (countNl (c :: t))) = 0 :=
          countNl_drop_self (c :: t)
        rw [hrest0] at ih2
        constructor
        · show occursIn nl3 ('\n' :: '\n' :: tagprStage4 _) = false
          rw [occursIn, occursIn, Bool.or_eq_false_iff, Bool.or_eq_false_iff]
          refine ⟨?_, ?_, ih1⟩
          · show isPre nl3 ('\n' :: '\n' :: tagprStage4 _) = false
            have hf := countNl_zero_isPre_false
              (x := tagprStage4 ((c :: t).drop (countNl (c :: t)))) (by omega) []
            rw [nl3, isPre_cons_cons, isPre_cons_cons]
            exact hf
          · show isPre nl3 ('\n' :: tagprStage4 _) = false
            cases hpp : isPre ['\n', '\n'] (tagprStage4 ((c :: t).drop (countNl (c :: t))))
            · rw [nl3, isPre_cons_cons]
              exact hpp
            · have := isPre_nl2_countNl hpp
              omega
        · show countNl ('\n' :: '\n' :: tagprStage4 _) = min (countNl (c :: t)) 2
          rw [countNl_cons_nl, countNl_cons_nl, ih2]
          omega
    · cases cs with
      | nil => exact ⟨occursIn_nil (by simp [nl3]), rfl⟩
      | cons c t =>
        have hm : mT4 (c :: t) = none := by
          simp [mT4, h3]
        have hstep := scanRepl_keepStep mT4 hm
        rw [show scanRepl mT4 0 (c :: t) = tagprStage4 (c :: t) from rfl] at hstep
        rw [hstep]
        have htlen : t.length ≤ n := by
          simp only [List.length_cons] at hlen
          omega
        rw [show scanRepl mT4 0 t = tagprStage4 t from rfl]
        obtain ⟨ih1, ih2⟩ := ih t htlen
        by_cases hc : c = '\n'
        · subst hc
          rw [countNl_cons_nl] at h3
          constructor
          · rw [occursIn, Bool.or_eq_false_iff]
            refine ⟨?_, ih1⟩
            cases hpp : isPre ['\n', '\n'] (tagprStage4 t)
            · rw [nl3, isPre_cons_cons]
              exact hpp
            · have h2c := isPre_nl2_countNl hpp
              rw [ih2] at h2c
              omega
          · rw [countNl_cons_nl, ih2, countNl_cons_nl]
            omega
        · constructor
          · rw [occursIn, Bool.or_eq_false_iff]
            refine ⟨?_, ih1⟩
            simp [nl3, isPre, Ne.symm hc]
          · rw [countNl_cons_ne _ hc, countNl_cons_ne _ hc]
            omega

theorem noTriple_tagprStage4 (cs : List Char) :
    occursIn nl3 (tagprStage4 cs) = false :=
  (tagprStage4_spec cs).1

theorem hasNl_false_mem {t : List Char} (h : hasNl t = false) :
    ∀ c ∈ t, ¬ c = '\n' := by
  intro c hc
  rw [hasNl, List.any_eq_false] at h
  simpa using h c hc

theorem tagprStage4_front {t : List Char} (r : List Char) (h : hasNl t = false) :
    tagprStage4 (t ++ r) = t ++ tagprStage4 r := by
  refine scanRepl_front mT4 t r fun j hj => ?_
  rw [List.drop_append_of_le_length (Nat.le_of_lt hj)]
  have hdrop : t.drop j = t[j] :: t.drop (j + 1) := List.drop_eq_getElem_cons hj
  rw [hdrop, List.cons_append]
  have hne : ¬ t[j] = '\n' := hasNl_false_mem h _ (List.getElem_mem hj)
  simp [mT4, countNl_cons_ne _ hne]

theorem tagprStage4_run {r : List Char} (k : Nat) (h : countNl r = 0) :
    tagprStage4 (nlRep k ++ r) = nlRep (min k 2) ++ tagprStage4 r := by
  have hcount : countNl (nlRep k ++ r) = k := by
    rw [countNl_nlRep_append, h]
    omega
  by_cases h3 : 3 ≤ k
  · have hm : mT4 (nlRep k ++ r) = some (['\n', '\n'], k) := by
      simp [mT4, hcount, h3]
    have hmin : min k 2 = 2 := by omega
    cases hrep : nlRep k ++ r with
    | nil =>
      have := congrArg List.length hrep
      simp [nlRep] at this
      omega
    | cons c t =>
      rw [← hrep]
      rw [show tagprStage4 (nlRep k ++ r) = scanRepl mT4 0 (nlRep k ++ r) from rfl]
      rw [hrep, scanRepl_matchStep mT4 (hrep ▸ hm) (by omega), ← hrep]
      have hdrop : (nlRep k ++ r).drop k = r := by
        have hl : (nlRep k).length = k := by simp [nlRep]
        exact List.drop_left' hl
      rw [hdrop, hmin]
      rfl
  · have hmin : min k 2 = k := by omega
    rw [hmin]
    refine scanRepl_front mT4 (nlRep k) r fun j hj => ?_
    have hjk : j ≤ k := by
      simp [nlRep] at hj
      omega
    have hdrop : (nlRep k ++ r).drop j = nlRep (k - j) ++ r := by
      rw [List.drop_append_of_le_length (by simp [nlRep]; omega)]
      congr 1
      simp [nlRep, List.drop_replicate]
    rw [hdrop]
    have hcnt : countNl (nlRep (k - j) ++ r) = k - j := by
      rw [countNl_nlRep_append, h]
      omega
    have h4 : ¬ 3 ≤ k - j := by omega
    simp [mT4, hcnt, h4]

theorem countNl_decodeC_zero : ∀ L, wfC false L → countNl (decodeC L) = 0 := by
  intro L hL
  cases L with
  | nil => rfl
  | cons p rest =>
    obtain ⟨t, k⟩ := p
    obtain ⟨h1, h2, h3⟩ := hL
    cases ht : t with
    | nil => exact absurd ht (h2 rfl)
    | cons c t' =>
      subst ht
      simp only [decodeC, List.cons_append, List.append_assoc]
      have : ¬ c = '\n' := hasNl_false_mem h1 c (by simp)
      exact countNl_cons_ne _ this

theorem tagprStage4_chunks : ∀ (L : List (List Char × Nat)) (flag : Bool), wfC flag L →
    tagprStage4 (decodeC L) = decodeC (capC L) := by
  intro L
  induction L with
  | nil => intro flag _; rfl
  | cons p rest ih =>
    intro flag h
    obtain ⟨t, k⟩ := p
    obtain ⟨h1, h2, h3⟩ := h
    rw [decodeC, List.append_assoc, tagprStage4_front (nlRep k ++ decodeC rest) h1]
    have hz : countNl (decodeC rest) = 0 := by
      cases rest with
      | nil => rfl
      | cons q rest' => exact countNl_decodeC_zero _ h3
    rw [tagprStage4_run k hz, ih false h3]
    simp [capC, decodeC, List.append_assoc]

/-!
Inversion lemmas for the three pattern matchers.
-/

theorem drop_takeWhile_eq_dropWhile (p : Char → Bool) : ∀ l : List Char,
    l.drop (l.takeWhile p).length = l.dropWhile p := by
  intro l
  induction l with
  | nil => rfl
  | cons c t ih =>
    by_cases hc : p c = true
    · rw [List.takeWhile_cons_of_pos hc, List.dropWhile_cons_of_pos hc]
      simpa using ih
    · rw [List.takeWhile_cons_of_neg hc, List.dropWhile_cons_of_neg hc]
      rfl

theorem mT2_some_elim {cs rep : List Char} {k : Nat} (h : mT2 cs = some (rep, k)) :
    ∃ ds ws b, cs = checkoutLit ++ (ds ++ '\n' :: (ws ++ (sentLit ++ b)))
      ∧ ds ≠ [] ∧ (∀ c ∈ ds, digitCh c = true) ∧ (∀ c ∈ ws, jsWs c = true)
      ∧ rep = (checkoutLit ++ ds) ++ '\n' :: (ws ++ "with:\n".data ++ ws ++ withTokenTail)
      ∧ k = (checkoutLit ++ ds).length + 1 + ws.length + sentLit.length := by
  simp only [mT2] at h
  split at h
  · cases h
  next r1 hdrop =>
    split at h
    · cases h
    next hne =>
      split at h
      case h_2 => cases h
      next r2 heq =>
        split at h
        · cases h
        next b hsent =>
          simp only [Option.some.injEq, Prod.mk.injEq] at h
          obtain ⟨hrep, hk⟩ := h
          refine ⟨r1.takeWhile fun c => digitCh c, r2.takeWhile fun c => jsWs c, b,
            ?_, ?_, ?_, ?_, hrep.symm, hk.symm⟩
          · have hcs : cs = checkoutLit ++ r1 := dropL_iff.mp hdrop
            have hd1 : r1.dropWhile (fun c => digitCh c) = '\n' :: r2 :=
              (drop_takeWhile_eq_dropWhile (fun c => digitCh c) r1).symm.trans heq
            have hr1 : r1 = (r1.takeWhile fun c => digitCh c) ++ ('\n' :: r2) := by
              conv_lhs => rw [← List.takeWhile_append_dropWhile
                (p := fun c => digitCh c) (l := r1)]
              rw [hd1]
            have hd2 : r2.dropWhile (fun c => jsWs c) = sentLit ++ b :=
              (drop_takeWhile_eq_dropWhile (fun c => jsWs c) r2).symm.trans
                (dropL_iff.mp hsent)
            have hr2 : r2 = (r2.takeWhile fun c => jsWs c) ++ (sentLit ++ b) := by
              conv_lhs => rw [← List.takeWhile_append_dropWhile
                (p := fun c => jsWs c) (l := r2)]
              rw [hd2]
            rw [hcs]
            conv_lhs => rw [hr1]
            conv_lhs => rw [hr2]
          · intro hempty
            rw [hempty] at hne
            exact hne rfl
          · exact fun c hc => List.mem_takeWhile_imp hc
          · exact fun c hc => List.mem_takeWhile_imp hc

theorem mT2_some_occursIn {cs rep : List Char} {k : Nat} (h : mT2 cs = some (rep, k)) :
    occursIn sentPre cs = true ∧ 1 ≤ k ∧ 69 ≤ rep.length := by
  obtain ⟨ds, ws, b, hcs, hds, -, -, hrep, hk⟩ := mT2_some_elim h
  refine ⟨?_, ?_, ?_⟩
  · rw [hcs]
    have h1 : occursIn sentPre sentLit = true := by decide
    have h2 : occursIn sentLit (checkoutLit ++ (ds ++ '\n' :: (ws ++ (sentLit ++ b)))) = true := by
      refine occursIn_append_right _ (occursIn_append_right _ ?_)
      show occursIn sentLit ('\n' :: (ws ++ (sentLit ++ b))) = true
      rw [occursIn, Bool.or_eq_true]
      exact Or.inr (occursIn_append_right _ (occursIn_of_isPre (isPre_self_append _ _)))
    exact occursIn_trans h1 h2
  · omega
  · rw [hrep]
    have hds1 : 1 ≤ ds.length := List.length_pos.mpr hds
    simp [checkoutLit, withTokenTail, List.length_append]
    omega

theorem mT3_some_props {cs rep : List Char} {k : Nat} (h : mT3 cs = some (rep, k)) :
    rep = ['\n'] ∧ 1 ≤ k ∧ occursIn sentPre cs = true := by
  simp only [mT3] at h
  split at h
  · cases h
  next r hsent =>
    split at h
    case h_2 => cases h
    next r' heq =>
      simp only [Option.some.injEq, Prod.mk.injEq] at h
      obtain ⟨hrep, hk⟩ := h
      refine ⟨hrep.symm, by omega, ?_⟩
      have : occursIn sentPre (cs.drop (cs.takeWhile fun c => jsWs c).length) = true := by
        rw [dropL_iff.mp hsent]
        exact occursIn_of_isPre (isPre_self_append _ _)
      exact occursIn_drop this

theorem mT4_some_props {cs rep : List Char} {k : Nat} (h : mT4 cs = some (rep, k)) :
    rep = ['\n', '\n'] ∧ 1 ≤ k ∧ occursIn nl3 cs = true := by
  rw [mT4] at h
  split at h
  next h3 =>
    simp only [Option.some.injEq, Prod.mk.injEq] at h
    exact ⟨h.1.symm, by omega, occursIn_of_isPre (countNl_ge_isPre h3)⟩
  · cases h

theorem mLit_some_elim {α : Type} [DecidableEq α] {pat rep cs r : List α} {k : Nat}
    (h : mLit pat rep cs = some (r, k)) :
    isPre pat cs = true ∧ r = rep ∧ k = pat.length := by
  rw [mLit] at h
  split at h
  next hcond =>
    simp only [Option.some.injEq, Prod.mk.injEq] at h
    rw [Bool.and_eq_true] at hcond
    exact ⟨hcond.1, h.1.symm, h.2.symm⟩
  · cases h

/-!
Concrete side conditions: the `GITHUB_TOKEN` pattern never occurs in, nor
straddles, any replacement text, so the first stage removes it for good;
and the sentinel text only ever enters via its own matchers.
-/

theorem occursIn_two_append {α : Type} [DecidableEq α] {a b : α} {x y : List α}
    (hx : ∀ c ∈ x, ¬ c = a) (hy : occursIn [a, b] y = false) :
    occursIn [a, b] (x ++ y) = false := by
  cases ho : occursIn [a, b] (x ++ y)
  · rfl
  · exfalso
    rcases occursIn_append_split ho with h1 | h1 | ⟨j, hj1, hj2, hj3, hj4⟩
    · exact hx a (mem_of_occursIn h1 a (by simp)) rfl
    · rw [hy] at h1; cases h1
    · have hj : j = 1 := by
        simp only [List.length_cons, List.length_nil] at hj2
        omega
      subst hj
      obtain ⟨u, hu⟩ := isSufB_iff.mp (by simpa using hj3)
      exact hx a (by rw [hu]; simp) rfl

theorem isSufB_append_ext {α : Type} [DecidableEq α] {q y : List α} (x : List α)
    (h : isSufB q y = true) : isSufB q (x ++ y) = true := by
  obtain ⟨a, rfl⟩ := isSufB_iff.mp h
  exact isSufB_iff.mpr ⟨x ++ a, by simp⟩

theorem ghPat_len : ghPat.length = 41 := by decide

theorem mT2_conds_ghPat : ∀ cs rep k, mT2 cs = some (rep, k) →
    1 ≤ k ∧ occursIn ghPat rep = false ∧
    (∀ j, 1 ≤ j → j < ghPat.length → isSufB (ghPat.take j) rep = false) ∧
    (∀ i, 1 ≤ i → i < ghPat.length →
      isPre (ghPat.drop i) rep = false ∧ isPre rep (ghPat.drop i) = false) := by
  intro cs rep k hm
  obtain ⟨hocc, hk, hlen⟩ := mT2_some_occursIn hm
  obtain ⟨ds, ws, b, hcs, hds, hdig, hws, hrep, hke⟩ := mT2_some_elim hm
  have hrep' : rep = checkoutLit ++ (ds ++ (['\n'] ++ (ws ++ ("with:\n".data ++
      (ws ++ withTokenTail))))) := by
    rw [hrep]
    simp [List.append_assoc]
  have hG_ds : ∀ c ∈ ds, ¬ c = 'G' := by
    intro c hc he
    subst he
    exact absurd (hdig 'G' hc) (by decide)
  have hG_ws : ∀ c ∈ ws, ¬ c = 'G' := by
    intro c hc he
    subst he
    exact absurd (hws 'G' hc) (by decide)
  have hGI : occursIn ['G', 'I'] rep = false := by
    rw [hrep']
    refine occursIn_two_append (by decide) ?_
    refine occursIn_two_append hG_ds ?_
    refine occursIn_two_append (by decide) ?_
    refine occursIn_two_append hG_ws ?_
    refine occursIn_two_append (by decide) ?_
    exact occursIn_two_append hG_ws (by decide)
  have htail : isSufB withTokenTail rep = true := by
    rw [hrep']
    refine isSufB_append_ext _ (isSufB_append_ext _ (isSufB_append_ext _
      (isSufB_append_ext _ (isSufB_append_ext _ (isSufB_append_ext _ ?_)))))
    exact isSufB_iff.mpr ⟨[], by simp⟩
  refine ⟨by omega, ?_, ?_, ?_⟩
  · cases ho : occursIn ghPat rep
    · rfl
    · have := occursIn_trans (u := ['G', 'I']) (by decide) ho
      rw [hGI] at this
      cases this
  · intro j hj1 hj2
    rw [ghPat_len] at hj2
    have hjlen : (ghPat.take j).length = j := by
      rw [List.length_take, ghPat_len]
      omega
    have hwtt : withTokenTail.length = 37 := by decide
    cases hs : isSufB (ghPat.take j) rep
    · rfl
    · exfalso
      by_cases hj37 : j ≤ 37
      · have hsmall := isSufB_of_isSufB_le hs htail (by rw [hjlen, hwtt]; omega)
        have hdec : ∀ j, j < 41 → 1 ≤ j → j ≤ 37 →
            isSufB (ghPat.take j) withTokenTail = false := by decide
        rw [hdec j hj2 hj1 hj37] at hsmall
        cases hsmall
      · have hbig := isSufB_of_isSufB_le htail hs (by rw [hjlen, hwtt]; omega)
        have hdec : ∀ j, j < 41 → 38 ≤ j →
            isSufB withTokenTail (ghPat.take j) = false := by decide
        rw [hdec j hj2 (by omega)] at hbig
        cases hbig
  · intro i hi1 hi2
    rw [ghPat_len] at hi2
    constructor
    · cases hq : ghPat.drop i with
      | nil =>
        have := congrArg List.length hq
        simp only [List.length_drop, ghPat_len, List.length_nil] at this
        omega
      | cons d q' =>
        have hrep'' : rep = 'u' :: ("ses: actions/checkout@v".data ++
            (ds ++ (['\n'] ++ (ws ++ ("with:\n".data ++ (ws ++ withTokenTail)))))) := by
          rw [hrep']
          rfl
        cases hp : isPre (d :: q') rep
        · rfl
        · exfalso
          rw [hrep''] at hp
          simp only [isPre, Bool.and_eq_true, decide_eq_true_eq] at hp
          have hdm : d ∈ ghPat := List.mem_of_mem_drop (by rw [hq]; simp)
          have : ∀ c ∈ ghPat, ¬ c = 'u' := by decide
          exact this d hdm hp.1
    · cases hp : isPre rep (ghPat.drop i)
      · rfl
      · exfalso
        have := isPre_length hp
        simp only [List.length_drop, ghPat_len] at this
        omega

theorem mT3_conds_ghPat : ∀ cs rep k, mT3 cs = some (rep, k) →
    1 ≤ k ∧ occursIn ghPat rep = false ∧
    (∀ j, 1 ≤ j → j < ghPat.length → isSufB (ghPat.take j) rep = false) ∧
    (∀ i, 1 ≤ i → i < ghPat.length →
      isPre (ghPat.drop i) rep = false ∧ isPre rep (ghPat.drop i) = false) := by
  intro cs rep k hm
  obtain ⟨hrep, hk, -⟩ := mT3_some_props hm
  subst hrep
  refine ⟨hk, by decide, ?_, ?_⟩
  · have hdec : ∀ j, j < 41 → 1 ≤ j → isSufB (ghPat.take j) ['\n'] = false := by decide
    intro j hj1 hj2
    rw [ghPat_len] at hj2
    exact hdec j hj2 hj1
  · have hdec : ∀ i, i < 41 → 1 ≤ i →
        isPre (ghPat.drop i) ['\n'] = false ∧ isPre ['\n'] (ghPat.drop i) = false := by
      decide
    intro i hi1 hi2
    rw [ghPat_len] at hi2
    exact hdec i hi2 hi1

theorem mT4_conds_ghPat : ∀ cs rep k, mT4 cs = some (rep, k) →
    1 ≤ k ∧ occursIn ghPat rep = false ∧
    (∀ j, 1 ≤ j → j < ghPat.length → isSufB (ghPat.take j) rep = false) ∧
    (∀ i, 1 ≤ i → i < ghPat.length →
      isPre (ghPat.drop i) rep = false ∧ isPre rep (ghPat.drop i) = false) := by
  intro cs rep k hm
  obtain ⟨hrep, hk, -⟩ := mT4_some_props hm
  subst hrep
  refine ⟨hk, by decide, ?_, ?_⟩
  · have hdec : ∀ j, j < 41 → 1 ≤ j →
        isSufB (ghPat.take j) ['\n', '\n'] = false := by decide
    intro j hj1 hj2
    rw [ghPat_len] at hj2
    exact hdec j hj2 hj1
  · have hdec : ∀ i, i < 41 → 1 ≤ i →
        isPre (ghPat.drop i) ['\n', '\n'] = false ∧
        isPre ['\n', '\n'] (ghPat.drop i) = false := by decide
    intro i hi1 hi2
    rw [ghPat_len] at hi2
    exact hdec i hi2 hi1

theorem sentPre_len : sentPre.length = 29 := by decide

theorem mLit_conds_sentPre : ∀ cs rep k, mLit ghPat ghRep cs = some (rep, k) →
    1 ≤ k ∧ occursIn sentPre rep = false ∧
    (∀ j, 1 ≤ j → j < sentPre.length → isSufB (sentPre.take j) rep = false) ∧
    (∀ i, 1 ≤ i → i < sentPre.length →
      isPre (sentPre.drop i) rep = false ∧ isPre rep (sentPre.drop i) = false) := by
  intro cs rep k hm
  obtain ⟨-, hrep, hke⟩ := mLit_some_elim hm
  subst hrep
  subst hke
  refine ⟨by decide, by decide, ?_, ?_⟩
  · have hdec : ∀ j, j < 29 → 1 ≤ j → isSufB (sentPre.take j) ghRep = false := by decide
    intro j hj1 hj2
    rw [sentPre_len] at hj2
    exact hdec j hj2 hj1
  · have hdec : ∀ i, i < 29 → 1 ≤ i →
        isPre (sentPre.drop i) ghRep = false ∧ isPre ghRep (sentPre.drop i) = false := by
      decide
    intro i hi1 hi2
    rw [sentPre_len] at hi2
    exact hdec i hi2 hi1

theorem mT4_conds_sentPre : ∀ cs rep k, mT4 cs = some (rep, k) →
    1 ≤ k ∧ occursIn sentPre rep = false ∧
    (∀ j, 1 ≤ j → j < sentPre.length → isSufB (sentPre.take j) rep = false) ∧
    (∀ i, 1 ≤ i → i < sentPre.length →
      isPre (sentPre.drop i) rep = false ∧ isPre rep (sentPre.drop i) = false) := by
  intro cs rep k hm
  obtain ⟨hrep, hk, -⟩ := mT4_some_props hm
  subst hrep
  refine ⟨hk, by decide, ?_, ?_⟩
  · have hdec : ∀ j, j < 29 → 1 ≤ j →
        isSufB (sentPre.take j) ['\n', '\n'] = false := by decide
    intro j hj1 hj2
    rw [sentPre_len] at hj2
    exact hdec j hj2 hj1
  · have hdec : ∀ i, i < 29 → 1 ≤ i →
        isPre (sentPre.drop i) ['\n', '\n'] = false ∧
        isPre ['\n', '\n'] (sentPre.drop i) = false := by decide
    intro i hi1 hi2
    rw [sentPre_len] at hi2
    exact hdec i hi2 hi1

/-!
Stage-level corollaries.
-/

theorem tagprStage1_noGH (cs : List Char) :
    occursIn ghPat (tagprStage1 cs) = false := by
  refine (scanRepl_removeLit ghPat ghRep (by decide) (by decide) ?_ ?_ cs).1
  · have hdec : ∀ j, j < 41 → 1 ≤ j → isSufB (ghPat.take j) ghRep = false := by decide
    intro j hj1 hj2
    rw [ghPat_len] at hj2
    exact hdec j hj2 hj1
  · have hdec : ∀ i, i < 41 → 1 ≤ i →
        isPre (ghPat.drop i) ghRep = false ∧ isPre ghRep (ghPat.drop i) = false := by
      decide
    intro i hi1 hi2
    rw [ghPat_len] at hi2
    exact hdec i hi2 hi1

theorem tagprStage2_noGH {cs : List Char} (h : occursIn ghPat cs = false) :
    occursIn ghPat (tagprStage2 cs) = false :=
  (scanRepl_preserve mT2 ghPat (by decide) mT2_conds_ghPat cs h).1

theorem tagprStage3_noGH {cs : List Char} (h : occursIn ghPat cs = false) :
    occursIn ghPat (tagprStage3 cs) = false :=
  (scanRepl_preserve mT3 ghPat (by decide) mT3_conds_ghPat cs h).1

theorem tagprStage4_noGH {cs : List Char} (h : occursIn ghPat cs = false) :
    occursIn ghPat (tagprStage4 cs) = false :=
  (scanRepl_preserve mT4 ghPat (by decide) mT4_conds_ghPat cs h).1

theorem tagprStage1_noSent {cs : List Char} (h : occursIn sentPre cs = false) :
    occursIn sentPre (tagprStage1 cs) = false :=
  (scanRepl_preserve (mLit ghPat ghRep) sentPre (by decide) mLit_conds_sentPre cs h).1

theorem tagprStage2_id_noSent {cs : List Char} (h : occursIn sentPre cs = false) :
    tagprStage2 cs = cs := by
  refine scanRepl_allFail mT2 cs fun j => ?_
  cases hm : mT2 (cs.drop j) with
  | none => rfl
  | some val =>
    obtain ⟨rep, k⟩ := val
    have := occursIn_drop (mT2_some_occursIn hm).1
    rw [this] at h
    cases h

theorem tagprStage3_id_noSent {cs : List Char} (h : occursIn sentPre cs = false) :
    tagprStage3 cs = cs := by
  refine scanRepl_allFail mT3 cs fun j => ?_
  cases hm : mT3 (cs.drop j) with
  | none => rfl
  | some val =>
    obtain ⟨rep, k⟩ := val
    have := occursIn_drop (mT3_some_props hm).2.2
    rw [this] at h
    cases h

theorem tagprStage4_noSent {cs : List Char} (h : occursIn sentPre cs = false) :
    occursIn sentPre (tagprStage4 cs) = false :=
  (scanRepl_preserve mT4 sentPre (by decide) mT4_conds_sentPre cs h).1

theorem tagprStage1_id_noGH {cs : List Char} (h : occursIn ghPat cs = false) :
    tagprStage1 cs = cs := by
  refine scanRepl_allFail (mLit ghPat ghRep) cs fun j => ?_
  cases hm : mLit ghPat ghRep (cs.drop j) with
  | none => rfl
  | some val =>
    obtain ⟨rep, k⟩ := val
    have := occursIn_drop (occursIn_of_isPre (mLit_some_elim hm).1)
    rw [this] at h
    cases h

theorem tagprStage4_id_noTriple {cs : List Char} (h : occursIn nl3 cs = false) :
    tagprStage4 cs = cs :=
  scanRepl_allFail mT4 cs (mT4_none_of_noTriple h)

/-!
Whole-rewriter corollaries for `replaceInTagprWorkflow`.
-/

theorem workflow_noGH (d p content : String) :
    occursIn ghPat (replaceInTagprWorkflow d p content).data = false :=
  tagprStage4_noGH (tagprStage3_noGH (tagprStage2_noGH (tagprStage1_noGH content.data)))

theorem workflow_noTriple (d p content : String) :
    occursIn nl3 (replaceInTagprWorkflow d p content).data = false :=
  noTriple_tagprStage4 _

theorem workflow_noSent (d p : String) {content : String}
    (h : occursIn sentPre content.data = false) :
    occursIn sentPre (replaceInTagprWorkflow d p content).data = false := by
  show occursIn sentPre
    (tagprStage4 (tagprStage3 (tagprStage2 (tagprStage1 content.data)))) = false
  have h1 : occursIn sentPre (tagprStage1 content.data) = false := tagprStage1_noSent h
  rw [tagprStage2_id_noSent h1, tagprStage3_id_noSent h1]
  exact tagprStage4_noSent h1

/-!
Manifest lemmas: the rewritten object's `name`, the removed `private`
key, preservation of the other fields, and the fixed point on replay.
-/

theorem lookupM_none_iff : ∀ (m : Manifest) (k : String),
    lookupM m k = none ↔ hasKeyM m k = false := by
  intro m k
  induction m with
  | nil => simp [lookupM, hasKeyM]
  | cons kv t ih =>
    obtain ⟨a, w⟩ := kv
    simp only [lookupM, hasKeyM]
    cases hl : lookupM t k with
    | some x =>
      have hk : hasKeyM t k = true := by
        cases hkt : hasKeyM t k
        · rw [ih.mpr hkt] at hl; cases hl
        · rfl
      simp [hk]
    | none =>
      have hk : hasKeyM t k = false := ih.mp hl
      by_cases hak : a = k
      · simp [hak, hk]
      · simp [hak, hk, Ne.symm hak]

theorem hasKeyM_delM_ne : ∀ (m : Manifest) (k k' : String), k ≠ k' →
    hasKeyM (delM m k') k = hasKeyM m k := by
  intro m k k' hne
  induction m with
  | nil => rfl
  | cons kv t ih =>
    obtain ⟨a, w⟩ := kv
    rw [delM, List.filter_cons]
    by_cases hak : a = k'
    · have hb : (a != k') = false := by simpa using hak
      rw [hb]
      simp only [Bool.false_eq_true, if_false]
      rw [show List.filter (fun kv => kv.1 != k') t = delM t k' from rfl, ih, hasKeyM]
      have hk2 : (a == k) = false := by
        simp only [beq_eq_false_iff_ne, ne_eq]
        intro h
        exact hne (h ▸ hak)
      rw [hk2, Bool.false_or]
    · have hb : (a != k') = true := by simpa using hak
      rw [hb]
      simp only [if_true]
      rw [hasKeyM, hasKeyM,
        show List.filter (fun kv => kv.1 != k') t = delM t k' from rfl, ih]

theorem hasKeyM_delM_self : ∀ (m : Manifest) (k : String),
    hasKeyM (delM m k) k = false := by
  intro m k
  induction m with
  | nil => rfl
  | cons kv t ih =>
    obtain ⟨a, w⟩ := kv
    rw [delM, List.filter_cons]
    by_cases hak : a = k
    · subst hak
      simp only [bne_self_eq_false, Bool.false_eq_true, if_neg, ite_false]
      exact ih
    · have hb : (a != k) = true := by simpa using hak
      simp only [hb, if_true]
      rw [hasKeyM, show (List.filter (fun kv => kv.1 != k) t) = delM t k from rfl, ih]
      simpa using hak

theorem lookupM_delM_ne : ∀ (m : Manifest) (k k' : String), k ≠ k' →
    lookupM (delM m k') k = lookupM m k := by
  intro m k k' hne
  induction m with
  | nil => rfl
  | cons kv t ih =>
    obtain ⟨a, w⟩ := kv
    rw [delM, List.filter_cons]
    by_cases hak : a = k'
    · have hb : (a != k') = false := by simpa using hak
      rw [hb]
      simp only [Bool.false_eq_true, if_false]
      rw [show List.filter (fun kv => kv.1 != k') t = delM t k' from rfl, ih, lookupM]
      cases hl : lookupM t k
      · have hk2 : ¬ a = k := by
          intro h
          exact hne (h ▸ hak)
        simp [hk2]
      · rfl
    · have hb : (a != k') = true := by simpa using hak
      rw [hb]
      simp only [if_true]
      rw [lookupM, lookupM,
        show List.filter (fun kv => kv.1 != k') t = delM t k' from rfl, ih]

theorem lookupM_append_last : ∀ (m : Manifest) (k : String) (v : Json),
    lookupM (m ++ [(k, v)]) k = some v := by
  intro m k v
  induction m with
  | nil => simp [lookupM]
  | cons kv t ih =>
    obtain ⟨a, w⟩ := kv
    rw [List.cons_append, lookupM, ih]

theorem hasKeyM_overwriteM : ∀ (m : Manifest) (k k' : String) (v : Json),
    hasKeyM (overwriteM k' v m) k = hasKeyM m k := by
  intro m k k' v
  induction m with
  | nil => rfl
  | cons kv t ih =>
    obtain ⟨a, w⟩ := kv
    rw [overwriteM, List.map_cons]
    rw [hasKeyM, hasKeyM, show (List.map _ t) = overwriteM k' v t from rfl, ih]
    by_cases hak : a = k'
    · simp [hak]
    · simp [hak]

theorem lookupM_overwriteM_self : ∀ (m : Manifest) (k : String) (v : Json),
    hasKeyM m k = true → lookupM (overwriteM k v m) k = some v := by
  intro m k v hm
  induction m with
  | nil => cases hm
  | cons kv t ih =>
    obtain ⟨a, w⟩ := kv
    rw [overwriteM, List.map_cons, lookupM,
      show (List.map _ t) = overwriteM k v t from rfl]
    cases hkt : hasKeyM t k with
    | true =>
      rw [ih hkt]
    | false =>
      have h0 : lookupM (overwriteM k v t) k = none := by
        rw [lookupM_none_iff, hasKeyM_overwriteM]
        exact hkt
      rw [h0]
      rw [hasKeyM, hkt, Bool.or_false] at hm
      have hak : a = k := by simpa using hm
      simp [hak]

theorem overwriteM_eq_self : ∀ (m : Manifest) (k : String) (v : Json),
    (∀ kv ∈ m, kv.1 = k → kv.2 = v) → overwriteM k v m = m := by
  intro m k v h
  induction m with
  | nil => rfl
  | cons kv t ih =>
    obtain ⟨a, w⟩ := kv
    rw [overwriteM, List.map_cons, show (List.map _ t) = overwriteM k v t from rfl,
      ih fun kv hkv => h kv (List.mem_cons_of_mem _ hkv)]
    by_cases hak : a = k
    · have hw := h (a, w) (by simp) hak
      simp only at hw
      simp [hak, hw]
    · simp [hak]

theorem delM_delM_comm (m : Manifest) (a b : String) :
    delM (delM m a) b = delM (delM m b) a := by
  show List.filter _ (List.filter _ m) = List.filter _ (List.filter _ m)
  rw [List.filter_filter, List.filter_filter]
  exact List.filter_congr fun x _ => by rw [Bool.and_comm]

theorem delM_delM_self (m : Manifest) (k : String) :
    delM (delM m k) k = delM m k := by
  show List.filter _ (List.filter _ m) = List.filter _ m
  rw [List.filter_filter]
  exact List.filter_congr fun x _ => by rw [Bool.and_self]

theorem hasKeyM_append (a b : Manifest) (k : String) :
    hasKeyM (a ++ b) k = (hasKeyM a k || hasKeyM b k) := by
  induction a with
  | nil => rfl
  | cons kv t ih =>
    obtain ⟨x, w⟩ := kv
    rw [List.cons_append, hasKeyM, hasKeyM, ih, Bool.or_assoc]

theorem hasKeyM_false_mem {m : Manifest} {k : String} (h : hasKeyM m k = false) :
    ∀ kv ∈ m, kv.1 ≠ k := by
  induction m with
  | nil => intro kv hkv; cases hkv
  | cons kv0 t ih =>
    intro kv hkv
    rw [hasKeyM, Bool.or_eq_false_iff] at h
    rcases List.mem_cons.mp hkv with rfl | hmem
    · simpa using h.1
    · exact ih h.2 kv hmem

theorem hasKeyM_setM_self (m : Manifest) (k : String) (v : Json) :
    hasKeyM (setM m k v) k = true := by
  rw [setM]
  by_cases hk : hasKeyM m k = true
  · rw [if_pos hk, hasKeyM_overwriteM, hk]
  · rw [if_neg hk, hasKeyM_append]
    simp [hasKeyM]

theorem lookupM_setM_self (m : Manifest) (k : String) (v : Json) :
    lookupM (setM m k v) k = some v := by
  rw [setM]
  by_cases hk : hasKeyM m k = true
  · rw [if_pos hk]
    exact lookupM_overwriteM_self m k v hk
  · rw [if_neg hk]
    exact lookupM_append_last m k v

theorem delM_overwriteM_self (m : Manifest) (k : String) (v : Json) :
    delM (overwriteM k v m) k = delM m k := by
  induction m with
  | nil => rfl
  | cons kv t ih =>
    obtain ⟨x, w⟩ := kv
    rw [overwriteM, List.map_cons, show (List.map _ t) = overwriteM k v t from rfl]
    by_cases hxk : x = k
    · subst hxk
      rw [if_pos rfl, delM, delM, List.filter_cons, List.filter_cons]
      simp only [bne_self_eq_false, Bool.false_eq_true, if_neg, ite_false]
      exact ih
    · rw [if_neg hxk, delM, delM, List.filter_cons, List.filter_cons]
      have hb : (x != k) = true := by simpa using hxk
      simp only [hb, if_true]
      rw [show (List.filter _ (overwriteM k v t)) = delM (overwriteM k v t) k from rfl,
        show (List.filter _ t) = delM t k from rfl, ih]

theorem delM_setM_self (m : Manifest) (k : String) (v : Json) :
    delM (setM m k v) k = delM m k := by
  rw [setM]
  by_cases hk : hasKeyM m k = true
  · rw [if_pos hk]
    exact delM_overwriteM_self m k v
  · rw [if_neg hk]
    show List.filter _ (m ++ [(k, v)]) = List.filter _ m
    rw [List.filter_append]
    simp

theorem mem_delM {m : Manifest} {k : String} {kv : String × Json}
    (h : kv ∈ delM m k) : kv ∈ m :=
  (List.mem_filter.mp h).1

theorem setM_entries (m : Manifest) (k : String) (v : Json) :
    ∀ kv ∈ setM m k v, kv.1 = k → kv.2 = v := by
  rw [setM]
  by_cases hk : hasKeyM m k = true
  · rw [if_pos hk]
    intro kv hkv hfst
    obtain ⟨kv0, hkv0, hmap⟩ := List.mem_map.mp hkv
    by_cases h0 : kv0.1 = k
    · rw [if_pos h0] at hmap
      rw [← hmap]
    · rw [if_neg h0] at hmap
      rw [← hmap] at hfst
      exact absurd hfst h0
  · rw [if_neg hk]
    intro kv hkv hfst
    rcases List.mem_append.mp hkv with hm | hone
    · exact absurd hfst (hasKeyM_false_mem (by simpa using hk) kv hm)
    · have : kv = (k, v) := by simpa using hone
      rw [this]

theorem replacePkg_name (pkg : Manifest) (pub : String) :
    lookupM (replaceInPackageJsonObj pkg pub) "name" = some (.str pub) := by
  rw [replaceInPackageJsonObj, lookupM_delM_ne _ _ _ (by decide)]
  exact lookupM_setM_self pkg "name" (.str pub)

theorem replacePkg_noPrivateKey (pkg : Manifest) (pub : String) :
    hasKeyM (replaceInPackageJsonObj pkg pub) "private" = false :=
  hasKeyM_delM_self _ _

theorem replacePkg_others (pkg : Manifest) (pub : String) :
    delM (delM (replaceInPackageJsonObj pkg pub) "name") "private"
      = delM (delM pkg "name") "private" := by
  rw [replaceInPackageJsonObj]
  rw [delM_delM_comm _ "private" "name", delM_setM_self, delM_delM_self]

theorem replacePkg_idem (pkg : Manifest) (pub : String) :
    replaceInPackageJsonObj (replaceInPackageJsonObj pkg pub) pub
      = replaceInPackageJsonObj pkg pub := by
  have hkey : hasKeyM (replaceInPackageJsonObj pkg pub) "name" = true := by
    rw [replaceInPackageJsonObj, hasKeyM_delM_ne _ _ _ (by decide)]
    exact hasKeyM_setM_self pkg "name" (.str pub)
  have hset : setM (replaceInPackageJsonObj pkg pub) "name" (.str pub)
      = replaceInPackageJsonObj pkg pub := by
    rw [setM, if_pos hkey]
    refine overwriteM_eq_self _ _ _ fun kv hkv hfst => ?_
    exact setM_entries pkg "name" (.str pub) kv (mem_delM hkv) hfst
  show delM (setM (replaceInPackageJsonObj pkg pub) "name" (.str pub)) "private"
    = replaceInPackageJsonObj pkg pub
  rw [hset, replaceInPackageJsonObj, delM_delM_self]

/-!
Config-rewriter lemmas: behaviour of the first-`name:`-line loop.
-/

theorem replaceOnce_id {α : Type} [DecidableEq α] {pat : List α} (rep : List α) :
    ∀ {l : List α}, occursIn pat l = false → replaceOnce pat rep l = l := by
  intro l
  induction l with
  | nil =>
    intro h
    rw [replaceOnce]
    cases hp : pat.isEmpty
    · simp [hp]
    · exfalso
      have : pat = [] := List.isEmpty_iff.mp hp
      subst this
      cases h
  | cons c t ih =>
    intro h
    rw [occursIn, Bool.or_eq_false_iff] at h
    rw [replaceOnce]
    simp only [h.1, Bool.false_eq_true, if_false]
    rw [ih h.2]

theorem nameLineRewrite_noMatch (d p : String) :
    ∀ lines : List (List Char), (∀ l ∈ lines, isNameLine l = false) →
    nameLineRewrite d p lines = lines := by
  intro lines h
  induction lines with
  | nil => rfl
  | cons l rest ih =>
    rw [nameLineRewrite]
    simp only [h l (by simp), Bool.false_eq_true, if_false]
    rw [ih fun x hx => h x (List.mem_cons_of_mem _ hx)]

theorem nameLineRewrite_split (d p : String) :
    ∀ (pre : List (List Char)) (l : List Char) (post : List (List Char)),
    (∀ x ∈ pre, isNameLine x = false) → isNameLine l = true →
    nameLineRewrite d p (pre ++ l :: post)
      = pre ++ replaceOnce d.data p.data l :: post := by
  intro pre
  induction pre with
  | nil =>
    intro l post _ hl
    rw [List.nil_append, nameLineRewrite]
    simp [hl]
  | cons x pre' ih =>
    intro l post hpre hl
    rw [List.cons_append, nameLineRewrite]
    simp only [hpre x (by simp), Bool.false_eq_true, if_false]
    rw [ih l post (fun y hy => hpre y (List.mem_cons_of_mem _ hy)) hl]
    rfl

/-!
Tree-scanner lemmas: the recursive walk finds exactly the files reachable
through non-excluded directories.
-/

theorem mem_findFilesRec (ex : List String) :
    ∀ (fsl : FsList) (segs : List String) (c : Option String),
    ((segs, c) ∈ findFilesRec ex fsl ↔ Reaches ex fsl segs c) := by
  suffices H : ∀ (n : Nat) (fsl : FsList), sizeOf fsl ≤ n →
      ∀ segs c, ((segs, c) ∈ findFilesRec ex fsl ↔ Reaches ex fsl segs c) by
    intro fsl
    exact H (sizeOf fsl) fsl (Nat.le_refl _)
  intro n
  induction n with
  | zero =>
    intro fsl h
    exfalso
    cases fsl <;> simp at h
  | succ n ih =>
    intro fsl hsz segs c
    cases fsl with
    | nil =>
      constructor
      · intro h
        simp [findFilesRec] at h
      · intro h
        cases h
    | cons e rest =>
      have hrest : sizeOf rest ≤ n := by
        cases e <;> (simp at hsz) <;> omega
      cases e with
      | file nm ct =>
        rw [findFilesRec]
        constructor
        · intro h
          rcases List.mem_cons.mp h with heq | hmem
          · have h1 : segs = [nm] := by
              have h' := congrArg Prod.fst heq
              simpa using h'
            have h2 : c = ct := by
              have h' := congrArg Prod.snd heq
              simpa using h'
            subst h1
            subst h2
            exact .headFile nm c rest
          · exact .tail _ _ _ _ ((ih rest hrest segs c).mp hmem)
        · intro h
          cases h with
          | headFile => exact List.mem_cons_self _ _
          | tail _ _ _ _ h' => exact List.mem_cons_of_mem _ ((ih rest hrest segs c).mpr h')
      | deniedDir nm =>
        rw [findFilesRec]
        constructor
        · intro h
          exact .tail _ _ _ _ ((ih rest hrest segs c).mp h)
        · intro h
          cases h with
          | tail _ _ _ _ h' => exact (ih rest hrest segs c).mpr h'
      | dir nm es =>
        have hes : sizeOf es ≤ n := by
          simp at hsz
          omega
        rw [findFilesRec]
        by_cases hex : ex.contains nm = true
        · rw [if_pos hex, List.nil_append]
          constructor
          · intro h
            exact .tail _ _ _ _ ((ih rest hrest segs c).mp h)
          · intro h
            cases h with
            | headDir _ _ _ _ _ hc => rw [hex] at hc; cases hc
            | tail _ _ _ _ h' => exact (ih rest hrest segs c).mpr h'
        · rw [if_neg hex]
          constructor
          · intro h
            rcases List.mem_append.mp h with hmap | hmem
            · obtain ⟨⟨segs0, c0⟩, hmem', heq⟩ := List.mem_map.mp hmap
              have h1 : segs = nm :: segs0 := by
                have h' := congrArg Prod.fst heq
                simpa using h'.symm
              have h2 : c = c0 := by
                have h' := congrArg Prod.snd heq
                simpa using h'.symm
              subst h1
              subst h2
              exact .headDir nm es rest segs0 c
                (Bool.not_eq_true _ ▸ hex) ((ih es hes segs0 c).mp hmem')
            · exact .tail _ _ _ _ ((ih rest hrest segs c).mp hmem)
          · intro h
            cases h with
            | headDir _ _ _ p' c' hc hr =>
              refine List.mem_append.mpr (Or.inl ?_)
              exact List.mem_map.mpr ⟨(p', c), (ih es hes p' c).mpr hr, rfl⟩
            | tail _ _ _ _ h' =>
              exact List.mem_append.mpr (Or.inr ((ih rest hrest segs c).mpr h'))

theorem mem_scanLines (devcode rel : String) :
    ∀ (lines : List (List Char)) (i0 : Nat) (occ : Occurrence),
    (occ ∈ scanLines devcode rel i0 lines ↔
      ∃ j, ∃ hj : j < lines.length,
        occursIn devcode.data (lines.get ⟨j, hj⟩) = true ∧
        occ = ⟨rel, i0 + j + 1, ⟨(trimBothL (lines.get ⟨j, hj⟩)).take 80⟩⟩) := by
  intro lines
  induction lines with
  | nil =>
    intro i0 occ
    constructor
    · intro h
      cases h
    · rintro ⟨j, hj, -⟩
      simp at hj
  | cons l rest ih =>
    intro i0 occ
    rw [scanLines, List.mem_append]
    constructor
    · intro h
      rcases h with h | h
      · by_cases ho : occursIn devcode.data l = true
        · rw [if_pos ho] at h
          have : occ = ⟨rel, i0 + 1, ⟨(trimBothL l).take 80⟩⟩ := by simpa using h
          exact ⟨0, by simp, by simpa using ho, by simpa using this⟩
        · rw [if_neg ho] at h
          cases h
      · obtain ⟨j, hj, hocc, heq⟩ := (ih (i0 + 1) occ).mp h
        refine ⟨j + 1, by simpa using hj, by simpa using hocc, ?_⟩
        rw [heq]
        simp only [List.get_cons_succ]
        congr 1
        omega
    · rintro ⟨j, hj, hocc, heq⟩
      cases j with
      | zero =>
        left
        rw [if_pos (by simpa using hocc)]
        simp only [List.get] at heq
        simp [heq]
      | succ j' =>
        right
        refine (ih (i0 + 1) occ).mpr ⟨j', by simpa using hj, by simpa using hocc, ?_⟩
        rw [heq]
        simp only [List.get_cons_succ]
        congr 1
        omega

theorem mem_findUnmanaged (devcode : String) (root : FsList) (occ : Occurrence) :
    occ ∈ findUnmanagedOccurrences devcode root ↔
    ∃ segs content, Reaches excludedDirs root segs (some content) ∧
      managedPaths.contains (relPath segs) = false ∧
      ∃ j, ∃ hj : j < (splitNl content.data).length,
        occursIn devcode.data ((splitNl content.data).get ⟨j, hj⟩) = true ∧
        occ = ⟨relPath segs, j + 1,
          ⟨(trimBothL ((splitNl content.data).get ⟨j, hj⟩)).take 80⟩⟩ := by
  rw [findUnmanagedOccurrences, List.mem_flatMap]
  constructor
  · rintro ⟨⟨segs, c⟩, hmem, hocc⟩
    by_cases hman : managedPaths.contains (relPath segs) = true
    · simp only [hman, if_true] at hocc
      cases hocc
    · simp only [Bool.not_eq_true] at hman
      rw [if_neg (by rw [hman]; exact Bool.false_ne_true)] at hocc
      cases c with
      | none => cases hocc
      | some content =>
        obtain ⟨j, hj, ho, heq⟩ := (mem_scanLines devcode (relPath segs)
          (splitNl content.data) 0 occ).mp hocc
        exact ⟨segs, content, (mem_findFilesRec excludedDirs root segs (some content)).mp hmem,
          hman, j, hj, ho, by rw [heq]; congr 1; omega⟩
  · rintro ⟨segs, content, hreach, hman, j, hj, ho, heq⟩
    refine ⟨(segs, some content),
      (mem_findFilesRec excludedDirs root segs (some content)).mpr hreach, ?_⟩
    rw [if_neg (by rw [hman]; exact Bool.false_ne_true)]
    refine (mem_scanLines devcode (relPath segs) (splitNl content.data) 0 occ).mpr
      ⟨j, hj, ho, ?_⟩
    rw [heq]
    congr 1
    omega

/-!
The schematic checkout rewrite: on content holding one well-formed
checkout-plus-sentinel block and otherwise clean, the rewriter replaces
exactly the sentinel with the `with:`/`token:` block.
-/

theorem takeWhile_append_all {α : Type} {f : α → Bool} :
    ∀ {u : List α} (v : List α), (∀ c ∈ u, f c = true) →
    (u ++ v).takeWhile f = u ++ v.takeWhile f := by
  intro u
  induction u with
  | nil => intro v _; rfl
  | cons x u' ih =>
    intro v h
    rw [List.cons_append, List.takeWhile_cons_of_pos (h x (by simp)), List.cons_append,
      ih v fun c hc => h c (List.mem_cons_of_mem _ hc)]

theorem dropL_self_append {α : Type} [DecidableEq α] (p r : List α) :
    dropL p (p ++ r) = some r :=
  dropL_iff.mpr rfl

theorem mT2_at_match (ds ws b : List Char) (hds0 : ds ≠ [])
    (hds : ∀ c ∈ ds, digitCh c = true) (hws : ∀ c ∈ ws, jsWs c = true) :
    mT2 (checkoutLit ++ (ds ++ ('\n' :: (ws ++ (sentLit ++ b)))))
      = some ((checkoutLit ++ ds) ++ '\n' :: (ws ++ "with:\n".data ++ ws ++ withTokenTail),
        (checkoutLit ++ ds).length + 1 + ws.length + sentLit.length) := by
  have htw : (ds ++ ('\n' :: (ws ++ (sentLit ++ b)))).takeWhile (fun c => digitCh c) = ds := by
    rw [takeWhile_append_all _ hds, List.takeWhile_cons_of_neg (by decide), List.append_nil]
  have hdrop : (ds ++ ('\n' :: (ws ++ (sentLit ++ b)))).drop ds.length
      = '\n' :: (ws ++ (sentLit ++ b)) := List.drop_left _ _
  have hsl : sentLit = '#' :: sentLit.tail := by decide
  have htw2 : (ws ++ (sentLit ++ b)).takeWhile (fun c => jsWs c) = ws := by
    rw [takeWhile_append_all _ hws, hsl, List.cons_append,
      List.takeWhile_cons_of_neg (by decide), List.append_nil]
  have hdrop2 : (ws ++ (sentLit ++ b)).drop ws.length = sentLit ++ b := List.drop_left _ _
  rw [mT2, dropL_self_append]
  simp only [htw, hdrop, htw2, hdrop2]
  rw [if_neg (by simpa using hds0)]
  simp only [dropL_self_append]

theorem allFail_ext (m : List Char → Option (List Char × Nat)) (hnil : m [] = none)
    {cs : List Char} (h : ∀ j ≤ cs.length, m (cs.drop j) = none) :
    ∀ j, m (cs.drop j) = none := by
  intro j
  by_cases hj : j ≤ cs.length
  · exact h j hj
  · rw [List.drop_eq_nil_of_le (by omega)]
    exact hnil

theorem tagprWorkflow_checkout (d p : String) (a ds ws b : List Char)
    (hds0 : ds ≠ []) (hds : ∀ c ∈ ds, digitCh c = true)
    (hws : ∀ c ∈ ws, jsWs c = true)
    (hGH : occursIn ghPat (checkoutInput a ds ws b) = false)
    (ha : ∀ j < a.length, mT2 ((checkoutInput a ds ws b).drop j) = none)
    (hb : ∀ j ≤ b.length, mT2 (b.drop j) = none)
    (h3 : ∀ j ≤ (checkoutOutput a ds ws b).length,
      mT3 ((checkoutOutput a ds ws b).drop j) = none)
    (h4 : occursIn nl3 (checkoutOutput a ds ws b) = false) :
    replaceInTagprWorkflow d p ⟨checkoutInput a ds ws b⟩ = ⟨checkoutOutput a ds ws b⟩ := by
  have h2 : tagprStage2 (checkoutInput a ds ws b) = checkoutOutput a ds ws b := by
    rw [show checkoutInput a ds ws b
        = a ++ (checkoutLit ++ (ds ++ ('\n' :: (ws ++ (sentLit ++ b))))) from rfl] at ha ⊢
    rw [tagprStage2, scanRepl_front mT2 a _ ha]
    have hm := mT2_at_match ds ws b hds0 hds hws
    have hXc : checkoutLit ++ (ds ++ ('\n' :: (ws ++ (sentLit ++ b))))
        = 'u' :: ("ses: actions/checkout@v".data ++ (ds ++ ('\n' :: (ws ++ (sentLit ++ b))))) := by
      rw [show checkoutLit = 'u' :: "ses: actions/checkout@v".data from rfl]
      rfl
    rw [hXc] at hm
    rw [hXc, scanRepl_matchStep mT2 hm (by omega)]
    rw [← hXc]
    have hdropb : (checkoutLit ++ (ds ++ ('\n' :: (ws ++ (sentLit ++ b))))).drop
        ((checkoutLit ++ ds).length + 1 + ws.length + sentLit.length) = b := by
      have hsplit : checkoutLit ++ (ds ++ ('\n' :: (ws ++ (sentLit ++ b))))
          = (checkoutLit ++ ds ++ ['\n'] ++ ws ++ sentLit) ++ b := by
        simp [List.append_assoc]
      rw [hsplit]
      refine List.drop_left' ?_
      simp only [List.length_append, List.length_cons, List.length_nil]
    rw [hdropb]
    rw [scanRepl_allFail mT2 b (allFail_ext mT2 rfl hb)]
    rw [checkoutOutput]
  show String.mk (tagprStage4 (tagprStage3 (tagprStage2 (tagprStage1
    (checkoutInput a ds ws b))))) = _
  rw [tagprStage1_id_noGH hGH, h2,
    show tagprStage3 (checkoutOutput a ds ws b)
      = scanRepl mT3 0 (checkoutOutput a ds ws b) from rfl,
    scanRepl_allFail mT3 _ (allFail_ext mT3 rfl h3), tagprStage4_id_noTriple h4]

theorem workflow_idem (d p content : String)
    (h : occursIn sentPre (replaceInTagprWorkflow d p content).data = false) :
    replaceInTagprWorkflow d p (replaceInTagprWorkflow d p content)
      = replaceInTagprWorkflow d p content := by
  show String.mk (tagprStage4 (tagprStage3 (tagprStage2 (tagprStage1
    (replaceInTagprWorkflow d p content).data)))) = _
  rw [tagprStage1_id_noGH (workflow_noGH d p content), tagprStage2_id_noSent h,
    tagprStage3_id_noSent h, tagprStage4_id_noTriple (workflow_noTriple d p content)]

/-!
The claims, one theorem each.
-/

/-- Claim C1 (corrected): `detectDevcode` succeeds exactly when the manifest
is present and its `private` field is truthy — not only when it is literally
`true`.  On success it returns the manifest's `name`; with `private` absent
or falsy it fails with the not-devcode error; a missing manifest fails with
the not-found error. -/
theorem claim_c1_detect (pkg : Manifest) (N : String) :
    (truthyOpt (lookupM pkg "private") = true →
      detectDevcode (.present (.parsed pkg)) = .ok (lookupM pkg "name")) ∧
    (truthyOpt (lookupM pkg "private") = false →
      detectDevcode (.present (.parsed pkg)) = .error .notDevcodeProject) ∧
    (lookupM pkg "private" = some (.bool true) → lookupM pkg "name" = some (.str N) →
      detectDevcode (.present (.parsed pkg)) = .ok (some (.str N))) ∧
    detectDevcode .absent = .error .manifestNotFound := by
  refine ⟨fun h => ?_, fun h => ?_, fun h1 h2 => ?_, rfl⟩
  · simp [detectDevcode, h]
  · simp [detectDevcode, h]
  · simp [detectDevcode, h1, h2, truthyOpt, truthy]

/-- Claim C1 counterexample: a manifest whose `private` field is the number
`1` — truthy but not the boolean `true` — is accepted by `detectDevcode`, so
detection is not equivalent to `private === true`. -/
theorem claim_c1_counterexample :
    detectDevcode (.present (.parsed [("name", Json.str "pkg-a"), ("private", Json.num 1)]))
      = .ok (some (Json.str "pkg-a"))
    ∧ Json.num 1 ≠ Json.bool true := by
  decide

/-- Claim C1 witness: a `private: true` manifest with `name` `pkg-a` is
detected as the devcode `pkg-a`. -/
theorem claim_c1_detect_witness :
    detectDevcode (.present (.parsed [("name", Json.str "pkg-a"), ("private", Json.bool true)]))
      = .ok (some (Json.str "pkg-a")) :=
  (claim_c1_detect [("name", Json.str "pkg-a"), ("private", Json.bool true)] "pkg-a").2.2.1
    (by decide) (by decide)

/-- Claim C2: after the manifest rewrite, `name` equals the requested
publish name, no `private` key remains, every other field is preserved
unchanged, and the written file is the 2-space-indented serialization
followed by one trailing newline.  The file-level strategy wraps exactly
this in-memory rewrite. -/
theorem claim_c2_package_json (pkg : Manifest) (pub : String) :
    lookupM (replaceInPackageJsonObj pkg pub) "name" = some (.str pub) ∧
    hasKeyM (replaceInPackageJsonObj pkg pub) "private" = false ∧
    delM (delM (replaceInPackageJsonObj pkg pub) "name") "private"
      = delM (delM pkg "name") "private" ∧
    (packageJsonWrite pkg pub).data
      = (stringify2 (Json.obj (toJF (replaceInPackageJsonObj pkg pub)))).data ++ ['\n'] ∧
    replaceInPackageJsonFile pub (.present (.parsed pkg))
      = (.present (.parsed (replaceInPackageJsonObj pkg pub)), none) :=
  ⟨replacePkg_name pkg pub, replacePkg_noPrivateKey pkg pub, replacePkg_others pkg pub,
   rfl, rfl⟩

/-- Claim C3 (corrected): the finder reports exactly the devcode-containing
lines of the readable files reachable outside the excluded directories
(`node_modules`, `.git`, `dist`, `bun.lockb`) and not at a managed path —
with relative path, 1-based line number, and the line trimmed and truncated
to 80 characters; files it cannot read yield nothing; and the scan never
affects the managed-file state of a run. -/
theorem claim_c3_finder (devcode : String) (root : FsList) (occ : Occurrence) :
    (occ ∈ findUnmanagedOccurrences devcode root ↔
      ∃ segs content, Reaches excludedDirs root segs (some content) ∧
        managedPaths.contains (relPath segs) = false ∧
        ∃ j, ∃ hj : j < (splitNl content.data).length,
          occursIn devcode.data ((splitNl content.data).get ⟨j, hj⟩) = true ∧
          occ = ⟨relPath segs, j + 1,
            ⟨(trimBothL ((splitNl content.data).get ⟨j, hj⟩)).take 80⟩⟩) ∧
    (∀ (pub : String) (st : ProjectState) (tree' : FsList),
      (prepareRelease pub st root).1 = (prepareRelease pub st tree').1) := by
  refine ⟨mem_findUnmanaged devcode root occ, fun pub st tree' => ?_⟩
  cases hd : detectDevcode st.packageJson <;> simp [prepareRelease, hd]

/-- Claim C3 counterexample: a readable file inside `node_modules` whose
content is exactly the devcode is not reported, although its path is not a
managed path, so the finder does not cover every readable unmanaged file. -/
theorem claim_c3_counterexample :
    findUnmanagedOccurrences "xyz"
      (.cons (.dir "node_modules" (.cons (.file "a.txt" (some "xyz")) .nil)) .nil) = []
    ∧ occursIn "xyz".data "xyz".data = true
    ∧ managedPaths.contains "node_modules/a.txt" = false := by
  decide

/-- Claim C4: when detection fails, `prepareRelease` returns the project
state unchanged — manifest, config and workflow byte-identical — and
surfaces exactly the detector's error. -/
theorem claim_c4_detect_abort (pub : String) (st : ProjectState) (tree : FsList)
    (e : DetectError) (h : detectDevcode st.packageJson = .error e) :
    prepareRelease pub st tree = (st, .error e) := by
  simp [prepareRelease, h]

/-- Claim C4 witness: with the manifest missing, a run aborts with the
not-found error and leaves the present config and workflow untouched. -/
theorem claim_c4_detect_abort_witness :
    prepareRelease "pub" ⟨.absent, .present "c", .present "w"⟩ .nil
      = (⟨.absent, .present "c", .present "w"⟩, .error .manifestNotFound) :=
  claim_c4_detect_abort "pub" ⟨.absent, .present "c", .present "w"⟩ .nil .manifestNotFound rfl

/-- Claim C5: the config rewriter leaves content without `name:` lines
unchanged; on content whose first `name:` line is `l`, it rewrites exactly
that line to `l` with its first devcode occurrence replaced, keeping every
other line byte-identical; a line without the devcode is not changed at
all; an absent config file is a silent no-op, not an error; and the
file-content rewrite is exactly this line transformation under the
newline split. -/
theorem claim_c5_codeql (d p : String) :
    (∀ lines : List (List Char), (∀ l ∈ lines, isNameLine l = false) →
      nameLineRewrite d p lines = lines) ∧
    (∀ (pre : List (List Char)) (l : List Char) (post : List (List Char)),
      (∀ x ∈ pre, isNameLine x = false) → isNameLine l = true →
      nameLineRewrite d p (pre ++ l :: post)
        = pre ++ replaceOnce d.data p.data l :: post) ∧
    (∀ l : List Char, occursIn d.data l = false → replaceOnce d.data p.data l = l) ∧
    replaceInCodeqlConfigFile d p .absent = (.absent, none) ∧
    (∀ content : String, (replaceInCodeqlConfig d p content).data
      = joinNl (nameLineRewrite d p (splitNl content.data))) :=
  ⟨nameLineRewrite_noMatch d p, nameLineRewrite_split d p,
   fun _ h => replaceOnce_id p.data h, rfl, fun _ => rfl⟩

/-- Claim C5 witness: with a comment line before it, the first `name:` line
is rewritten in place and the surrounding lines survive byte-identical. -/
theorem claim_c5_codeql_witness :
    nameLineRewrite "foo" "bar" (["# c".data] ++ "name: foo".data :: ["x: foo".data])
      = ["# c".data] ++ replaceOnce "foo".data "bar".data "name: foo".data :: ["x: foo".data] :=
  (claim_c5_codeql "foo" "bar").2.1 ["# c".data] "name: foo".data ["x: foo".data]
    (by decide) (by decide)

/-- Claim C6 (corrected): the workflow rewriter's output never contains the
anchored `GITHUB_TOKEN: $\x7b\x7b secrets.GITHUB_TOKEN \x7d\x7d` line body
and never a run of three or more consecutive newlines; it contains no
sentinel TODO comment provided the input had none; and on content holding a
checkout line immediately followed (after its indentation) by the full
sentinel comment — with no other pattern occurrences — the sentinel becomes
the indented `with:`/`token:` block under the preserved checkout line.
Unanchored `secrets.GITHUB_TOKEN` references and sentinel comments not
followed by a newline can survive (see the counterexample). -/
theorem claim_c6_workflow (d p : String) :
    (∀ content : String, occursIn ghPat (replaceInTagprWorkflow d p content).data = false) ∧
    (∀ content : String, occursIn nl3 (replaceInTagprWorkflow d p content).data = false) ∧
    (∀ content : String, occursIn sentPre content.data = false →
      occursIn sentPre (replaceInTagprWorkflow d p content).data = false) ∧
    (∀ a ds ws b : List Char, ds ≠ [] → (∀ c ∈ ds, digitCh c = true) →
      (∀ c ∈ ws, jsWs c = true) →
      occursIn ghPat (checkoutInput a ds ws b) = false →
      (∀ j < a.length, mT2 ((checkoutInput a ds ws b).drop j) = none) →
      (∀ j ≤ b.length, mT2 (b.drop j) = none) →
      (∀ j ≤ (checkoutOutput a ds ws b).length,
        mT3 ((checkoutOutput a ds ws b).drop j) = none) →
      occursIn nl3 (checkoutOutput a ds ws b) = false →
      replaceInTagprWorkflow d p ⟨checkoutInput a ds ws b⟩ = ⟨checkoutOutput a ds ws b⟩) :=
  ⟨workflow_noGH d p, workflow_noTriple d p, fun _ h => workflow_noSent d p h,
   fun a ds ws b h1 h2 h3 h4 h5 h6 h7 h8 =>
     tagprWorkflow_checkout d p a ds ws b h1 h2 h3 h4 h5 h6 h7 h8⟩

/-- Claim C6 counterexample: an unanchored `secrets.GITHUB_TOKEN` reference
and a sentinel TODO comment on the final, newline-less line both survive
the workflow rewriter unchanged, so the output is not free of either. -/
theorem claim_c6_counterexample :
    replaceInTagprWorkflow "dev" "pub"
        "x: $\x7b\x7b secrets.GITHUB_TOKEN \x7d\x7d\n# TODO: After replace-devcode, add token: y"
      = "x: $\x7b\x7b secrets.GITHUB_TOKEN \x7d\x7d\n# TODO: After replace-devcode, add token: y"
    ∧ occursIn "secrets.GITHUB_TOKEN".data
        "x: $\x7b\x7b secrets.GITHUB_TOKEN \x7d\x7d\n# TODO: After replace-devcode, add token: y".data
        = true
    ∧ occursIn sentPre
        "x: $\x7b\x7b secrets.GITHUB_TOKEN \x7d\x7d\n# TODO: After replace-devcode, add token: y".data
        = true := by
  decide

/-- Claim C6 witness: a concrete checkout step followed by the sentinel is
rewritten to the `with:`/`token:` block, and sentinel-free content stays
sentinel-free. -/
theorem claim_c6_workflow_witness :
    replaceInTagprWorkflow "dev" "pub" ⟨checkoutInput "- ".data "4".data "  ".data "\n".data⟩
      = ⟨checkoutOutput "- ".data "4".data "  ".data "\n".data⟩
    ∧ occursIn sentPre (replaceInTagprWorkflow "dev" "pub" "jobs:").data = false :=
  ⟨(claim_c6_workflow "dev" "pub").2.2.2 "- ".data "4".data "  ".data "\n".data
      (by decide) (by decide) (by decide) (by decide) (by decide) (by decide)
      (by decide) (by decide),
   (claim_c6_workflow "dev" "pub").2.2.1 "jobs:" (by decide)⟩

/-- Claim C7 (corrected): an absent config or workflow file is a silent
no-op for its location, not an error — but the manifest strategy has no
such handler, so an absent manifest surfaces as that location's error (in
a full run, detection has already read the manifest and aborts first);
and whenever detection succeeds the orchestrator runs all three
strategies, records each location's outcome (an error there does not
abort the others), scans for unmanaged occurrences and completes the run
with the full report. -/
theorem claim_c7_locations (d p pub : String) (st : ProjectState) (tree : FsList) :
    replaceInCodeqlConfigFile d p .absent = (.absent, none) ∧
    replaceInTagprWorkflowFile d p .absent = (.absent, none) ∧
    replaceInPackageJsonFile pub .absent = (.absent, some .fileNotFound) ∧
    (∀ nv, detectDevcode st.packageJson = .ok nv →
      prepareRelease pub st tree
        = (⟨(replaceInPackageJsonFile pub st.packageJson).1,
            (replaceInCodeqlConfigFile (jsToString nv) pub st.codeqlConfig).1,
            (replaceInTagprWorkflowFile (jsToString nv) pub st.tagprWorkflow).1⟩,
           .ok ⟨jsToString nv,
            [("package.json", (replaceInPackageJsonFile pub st.packageJson).2),
             (".github/codeql/codeql-config.yml",
               (replaceInCodeqlConfigFile (jsToString nv) pub st.codeqlConfig).2),
             (".github/workflows/tagpr.yml",
               (replaceInTagprWorkflowFile (jsToString nv) pub st.tagprWorkflow).2)],
            findUnmanagedOccurrences (jsToString nv) tree⟩)) := by
  refine ⟨rfl, rfl, rfl, fun nv h => ?_⟩
  simp [prepareRelease, h]

/-- Claim C7 witness: an unreadable config surfaces as that location's
error while the manifest and workflow locations still run and the report
is completed. -/
theorem claim_c7_locations_witness :
    prepareRelease "pub"
        ⟨.present (.parsed [("name", Json.str "dev"), ("private", Json.bool true)]),
         .readError, .present "w"⟩ .nil
      = (⟨.present (.parsed [("name", Json.str "pub")]), .readError, .present "w"⟩,
         .ok ⟨"dev",
           [("package.json", none),
            (".github/codeql/codeql-config.yml", some .ioError),
            (".github/workflows/tagpr.yml", none)],
           []⟩) :=
  (claim_c7_locations "dev" "pub" "pub"
      ⟨.present (.parsed [("name", Json.str "dev"), ("private", Json.bool true)]),
       .readError, .present "w"⟩ .nil).2.2.2
    (some (Json.str "dev")) (by decide)

/-- Claim C7 counterexample: a missing `package.json` is not "nothing to
do" for the manifest location — the manifest strategy has no
file-not-found handler and reports the absence as that location's error,
unlike the config and workflow strategies, whose absent files are silent
no-ops. -/
theorem claim_c7_counterexample :
    replaceInPackageJsonFile "pub" .absent = (.absent, some .fileNotFound)
    ∧ replaceInCodeqlConfigFile "dev" "pub" .absent = (.absent, none)
    ∧ replaceInTagprWorkflowFile "dev" "pub" .absent = (.absent, none)
    ∧ some StratError.fileNotFound ≠ (none : Option StratError) := by
  decide

/-- Claim C8 (corrected): the manifest rewrite is a fixed point on replay
for every manifest; the config rewrite is a no-op on replay provided the
rewritten `name:` line no longer contains the devcode (the counterexample
shows replay is not a no-op when the publish name still contains it); and
the workflow rewrite is a no-op on replay provided its first output is free
of the sentinel comment text. -/
theorem claim_c8_idem (d p : String) :
    (∀ (pkg : Manifest) (pub : String),
      replaceInPackageJsonObj (replaceInPackageJsonObj pkg pub) pub
        = replaceInPackageJsonObj pkg pub) ∧
    (∀ (pre : List (List Char)) (l : List Char) (post : List (List Char)),
      (∀ x ∈ pre, isNameLine x = false) → isNameLine l = true →
      isNameLine (replaceOnce d.data p.data l) = true →
      occursIn d.data (replaceOnce d.data p.data l) = false →
      nameLineRewrite d p (nameLineRewrite d p (pre ++ l :: post))
        = nameLineRewrite d p (pre ++ l :: post)) ∧
    (∀ content : String, occursIn sentPre (replaceInTagprWorkflow d p content).data = false →
      replaceInTagprWorkflow d p (replaceInTagprWorkflow d p content)
        = replaceInTagprWorkflow d p content) := by
  refine ⟨fun pkg pub => replacePkg_idem pkg pub, fun pre l post h1 h2 h3 h4 => ?_,
    fun content h => workflow_idem d p content h⟩
  rw [nameLineRewrite_split d p pre l post h1 h2,
    nameLineRewrite_split d p pre _ post h1 h3, replaceOnce_id p.data h4]

/-- Claim C8 counterexample: with devcode `foo` and publish name `foo-bar`,
re-running the config rewrite on its own output rewrites again —
`name: foo` becomes `name: foo-bar` and then `name: foo-bar-bar` — so the
second run is not a no-op. -/
theorem claim_c8_counterexample :
    replaceInCodeqlConfig "foo" "foo-bar"
        (replaceInCodeqlConfig "foo" "foo-bar" "name: foo") = "name: foo-bar-bar"
    ∧ replaceInCodeqlConfig "foo" "foo-bar" "name: foo" = "name: foo-bar"
    ∧ ("name: foo-bar-bar" : String) ≠ "name: foo-bar" := by
  decide

/-- Claim C8 witness: with devcode `foo` and publish name `bar`, replaying
the config rewrite on a rewritten `name:` line and replaying the workflow
rewrite on plain content are both no-ops. -/
theorem claim_c8_idem_witness :
    nameLineRewrite "foo" "bar" (nameLineRewrite "foo" "bar" ([] ++ "name: foo".data :: []))
      = nameLineRewrite "foo" "bar" ([] ++ "name: foo".data :: [])
    ∧ replaceInTagprWorkflow "foo" "bar" (replaceInTagprWorkflow "foo" "bar" "on: push")
      = replaceInTagprWorkflow "foo" "bar" "on: push" :=
  ⟨(claim_c8_idem "foo" "bar").2.1 [] "name: foo".data []
      (by decide) (by decide) (by decide) (by decide),
   (claim_c8_idem "foo" "bar").2.2 "on: push" (by decide)⟩

/-- Claim C9 (corrected): on any content decomposed into newline-free text
blocks separated by maximal newline runs, the collapsing stage caps every
newline run at two — so every run of two or more consecutive blank lines
(three or more newline characters) becomes exactly one blank line, and it
is not true that runs of exactly two blank lines are untouched (see the
counterexample); runs of at most two newline characters are unchanged. -/
theorem claim_c9_collapse (L : List (List Char × Nat)) (flag : Bool) (h : wfC flag L) :
    tagprStage4 (decodeC L) = decodeC (capC L) :=
  tagprStage4_chunks L flag h

/-- Claim C9 counterexample: `a\n\n\nb` holds a run of exactly two blank
lines, yet the collapsing stage rewrites it to `a\n\nb`, so runs of exactly
two blank lines are not left unchanged. -/
theorem claim_c9_counterexample :
    tagprStage4 "a\n\n\nb".data = "a\n\nb".data
    ∧ splitNl "a\n\n\nb".data = ["a".data, [], [], "b".data]
    ∧ "a\n\n\nb".data ≠ "a\n\nb".data := by
  decide

/-- Claim C9 witness: the block `a` followed by a three-newline run and the
block `b` collapses to `a` with a two-newline run before `b`. -/
theorem claim_c9_collapse_witness :
    tagprStage4 (decodeC [("a".data, 3), ("b".data, 0)])
      = decodeC (capC [("a".data, 3), ("b".data, 0)]) :=
  claim_c9_collapse [("a".data, 3), ("b".data, 0)] true
    (by rw [wfC, wfC]; exact ⟨by decide, by decide, by decide, by decide, trivial⟩)

/-- Claim C10: the workflow rewriter ignores the devcode and publish-name
arguments entirely — any two argument pairs give identical output on every
content, so devcode occurrences in the workflow are never rewritten by this
strategy. -/
theorem claim_c10_independent (content d1 p1 d2 p2 : String) :
    replaceInTagprWorkflow d1 p1 content = replaceInTagprWorkflow d2 p2 content :=
  rfl

end InitRepo
